import Mathlib

/-!
Verification of the file-classification operation engine of voice_sorter
(src/main.py) against its specification.  The Python code is shallowly
embedded: file paths become structured values, the SQLite history/audit
tables become lists of records, filesystem state becomes an explicit
structure threaded through the operations, and the bounded-retry mover is
modelled by its outcome on each source file.
-/

namespace VoiceSorter

/-- Audio extension allow-list, from AUDIO_EXTS in main.py. -/
def AUDIO_EXTS : List String := [".wav", ".mp3", ".flac", ".ogg", ".m4a", ".aac"]

/-- Reserved staging folder for excluded files (EXCLUDE_DIR_NAME). -/
def EXCLUDE_DIR_NAME : String := "_excluded_by_voice_sorter"

/-- Reserved staging folder for deferred files (DEFER_DIR_NAME). -/
def DEFER_DIR_NAME : String := "_deferred_by_voice_sorter"

/-- A file name, kept in the stem/suffix decomposition that pathlib exposes
(`Path.stem` / `Path.suffix`); the rendered name is `stem ++ suffix`. -/
structure FileName where
  stem : String
  suffix : String
deriving DecidableEq

/-- A filesystem path: the components of the containing directory plus the
file name.  Mirrors pathlib's `p.parent` / `p.name`. -/
structure FPath where
  dir : List String
  name : FileName
deriving DecidableEq

/-- The value Python's `Path("")` takes when a payload field is missing. -/
def emptyPath : FPath := ⟨[], ⟨"", ""⟩⟩

/-- Derived state of an operation in `_build_op_state`. -/
inductive OpState
  | applied
  | undone
deriving DecidableEq

/-- The JSON payload of a history record, restricted to the keys the engine
reads: `op_id`, `type`, `from`, `to`.  A record whose payload failed to
parse is read back as the all-`none` payload (cf. `fetch_history`). -/
structure Payload where
  op_id : Option String
  typ : Option String
  fromP : Option FPath
  toP : Option FPath
deriving DecidableEq

/-- A history row as returned by `Store.fetch_history`: primary-key id
(ascending), action string, parsed payload.  Timestamps are never read by
the engine and are omitted. -/
structure HRow where
  id : Nat
  action : String
  payload : Payload
deriving DecidableEq

/-- Mirrors the falsy test `op_id = p.get("op_id"); if not op_id: continue`
in `_build_op_state`: a missing or empty `op_id` is treated as absent. -/
def Payload.getOpId (p : Payload) : Option String :=
  match p.op_id with
  | none => none
  | some s => if s = "" then none else some s

/-- One reconstructed operation entry, the per-`op_id` dict value built by
`_build_op_state`. -/
structure OpSt where
  typ : String
  origin_src : FPath
  origin_dst : FPath
  state : OpState
  current_path : FPath
  last_event_id : Nat
deriving DecidableEq

/-- The op-state mapping: an insertion-ordered association list, mirroring a
Python dict keyed by `op_id`. -/
abbrev OpMap := List (String × OpSt)

/-- Dictionary lookup on the insertion-ordered map. -/
def lookupOp : OpMap → String → Option OpSt
  | [], _ => none
  | kv :: t, k => if kv.1 = k then some kv.2 else lookupOp t k

/-- Dictionary insert-or-overwrite, preserving insertion order like a
Python dict assignment. -/
def updOp (m : OpMap) (k : String) (v : OpSt) : OpMap :=
  if (lookupOp m k).isSome then
    m.map (fun kv => if kv.1 = k then (k, v) else kv)
  else
    m ++ [(k, v)]

/-- Processing of a single history row by `_build_op_state`'s replay loop.
A `move`/`exclude`/`defer` row inserts or overwrites the entry (the
`setdefault` captures type and origin only on first sight), an `undo`/`redo`
row for a known id flips the state, anything else is ignored. -/
def buildStep (ops : OpMap) (row : HRow) : OpMap :=
  let p := row.payload
  match p.getOpId with
  | none => ops
  | some op_id =>
    if row.action = "move" ∨ row.action = "exclude" ∨ row.action = "defer" then
      let toV := p.toP.getD emptyPath
      let base : OpSt := (lookupOp ops op_id).getD
        { typ := p.typ.getD row.action
          origin_src := p.fromP.getD emptyPath
          origin_dst := toV
          state := .applied
          current_path := toV
          last_event_id := row.id }
      updOp ops op_id { base with state := .applied, current_path := toV, last_event_id := row.id }
    else if row.action = "undo" then
      match lookupOp ops op_id with
      | none => ops
      | some st =>
        updOp ops op_id { st with state := .undone
                                  current_path := p.toP.getD (p.fromP.getD emptyPath)
                                  last_event_id := row.id }
    else if row.action = "redo" then
      match lookupOp ops op_id with
      | none => ops
      | some st =>
        updOp ops op_id { st with state := .applied
                                  current_path := p.toP.getD (p.fromP.getD emptyPath)
                                  last_event_id := row.id }
    else ops

/-- Replay of the full history log in ascending sequence order
(`_build_op_state` in main.py; `fetch_history` returns rows ordered by id). -/
def build_op_state (rows : List HRow) : OpMap :=
  rows.foldl buildStep []

theorem lookupOp_updOp_self (m : OpMap) (k : String) (v : OpSt) :
    lookupOp (updOp m k v) k = some v := by
  unfold updOp
  by_cases h : (lookupOp m k).isSome
  · simp only [h, if_true]
    induction m with
    | nil => simp [lookupOp] at h
    | cons kv t ih =>
      by_cases hk : kv.1 = k
      · simp [lookupOp, hk]
      · simp only [List.map_cons, if_neg hk, lookupOp, hk, if_false]
        apply ih
        simpa [lookupOp, hk] using h
  · simp only [h, if_false]
    induction m with
    | nil => simp [lookupOp]
    | cons kv t ih =>
      by_cases hk : kv.1 = k
      · simp [lookupOp, hk] at h
      · simp only [List.cons_append, lookupOp, hk, if_false]
        apply ih
        simpa [lookupOp, hk] using h

/-- C1: the operation-state reconstruction replays the history log in
ascending sequence order (`build_op_state` folds the per-record transition
over the ordered log); for each record: a move/exclude/defer record carrying
an op_id inserts or overwrites that id's entry with state=applied and
current_path = payload.to, with origin fields captured only by the first
such record for the id; an undo record for a known op_id sets state=undone
and current_path = payload.to; a redo record for a known op_id sets
state=applied and current_path = payload.to; an undo/redo record whose
op_id is unknown leaves the mapping unchanged. -/
theorem build_op_state_replay (rows : List HRow) (ops : OpMap) (row : HRow)
    (oid : String) (t : FPath)
    (hid : row.payload.getOpId = some oid) (ht : row.payload.toP = some t) :
    build_op_state rows = rows.foldl buildStep [] ∧
    (row.action = "move" ∨ row.action = "exclude" ∨ row.action = "defer" →
      (lookupOp ops oid = none →
        lookupOp (buildStep ops row) oid = some
          { typ := row.payload.typ.getD row.action
            origin_src := row.payload.fromP.getD emptyPath
            origin_dst := t
            state := .applied
            current_path := t
            last_event_id := row.id }) ∧
      (∀ st, lookupOp ops oid = some st →
        lookupOp (buildStep ops row) oid = some
          { st with state := .applied, current_path := t, last_event_id := row.id })) ∧
    (row.action = "undo" → ∀ st, lookupOp ops oid = some st →
      lookupOp (buildStep ops row) oid = some
        { st with state := .undone, current_path := t, last_event_id := row.id }) ∧
    (row.action = "redo" → ∀ st, lookupOp ops oid = some st →
      lookupOp (buildStep ops row) oid = some
        { st with state := .applied, current_path := t, last_event_id := row.id }) ∧
    ((row.action = "undo" ∨ row.action = "redo") → lookupOp ops oid = none →
      buildStep ops row = ops) := by
  obtain ⟨rid, ract, rpay⟩ := row
  simp only at hid ht ⊢
  refine ⟨rfl, ?_, ?_, ?_, ?_⟩
  · intro hact
    refine ⟨?_, ?_⟩
    · intro hnone
      rcases hact with h | h | h <;> subst h <;>
        simp +decide [buildStep, hid, ht, hnone, lookupOp_updOp_self]
    · intro st hst
      rcases hact with h | h | h <;> subst h <;>
        simp +decide [buildStep, hid, ht, hst, lookupOp_updOp_self]
  · intro h st hst
    subst h
    simp +decide [buildStep, hid, ht, hst, lookupOp_updOp_self]
  · intro h st hst
    subst h
    simp +decide [buildStep, hid, ht, hst, lookupOp_updOp_self]
  · intro hact hnone
    rcases hact with h | h <;> subst h <;>
      simp +decide [buildStep, hid, hnone]

/-- Witness for C1 at a concrete first move record. -/
theorem build_op_state_replay_witness :
    lookupOp (buildStep []
        ⟨1, "move", ⟨some "A", some "move", some ⟨["in"], ⟨"a", ".wav"⟩⟩,
          some ⟨["out"], ⟨"a", ".wav"⟩⟩⟩⟩) "A" =
      some ⟨"move", ⟨["in"], ⟨"a", ".wav"⟩⟩, ⟨["out"], ⟨"a", ".wav"⟩⟩,
        .applied, ⟨["out"], ⟨"a", ".wav"⟩⟩, 1⟩ := by
  have h := build_op_state_replay []
    [] ⟨1, "move", ⟨some "A", some "move", some ⟨["in"], ⟨"a", ".wav"⟩⟩,
      some ⟨["out"], ⟨"a", ".wav"⟩⟩⟩⟩ "A" ⟨["out"], ⟨"a", ".wav"⟩⟩ rfl rfl
  exact (h.2.1 (Or.inl rfl)).1 rfl

/-- One step of the candidate scan in `undo_last_persistent`: keep the
applied entry whose last_event_id is strictly greater than the current
candidate's. -/
def undoPick (cand : Option (String × OpSt)) (kv : String × OpSt) :
    Option (String × OpSt) :=
  if kv.2.state = OpState.applied then
    match cand with
    | none => some kv
    | some c => if c.2.last_event_id < kv.2.last_event_id then some kv else cand
  else cand

/-- The candidate selection of `undo_last_persistent`: scan the entries in
insertion order, keeping the applied one with the greatest last_event_id. -/
def undoCand (ops : OpMap) : Option (String × OpSt) :=
  ops.foldl undoPick none

theorem undoPick_inv (acc : Option (String × OpSt)) (kv : String × OpSt)
    (h : ∀ a, acc = some a → a.2.state = OpState.applied) :
    ∀ a, undoPick acc kv = some a → a.2.state = OpState.applied := by
  intro a ha
  unfold undoPick at ha
  by_cases hkv : kv.2.state = OpState.applied
  · simp only [hkv, if_true] at ha
    cases acc with
    | none => cases ha; exact hkv
    | some c =>
      by_cases hlt : c.2.last_event_id < kv.2.last_event_id
      · simp only [hlt, if_true] at ha
        cases ha; exact hkv
      · simp only [hlt, if_false] at ha
        exact h a ha
  · simp only [hkv, if_false] at ha
    exact h a ha

theorem undoCand_fold (l : List (String × OpSt)) : ∀ acc : Option (String × OpSt),
    (∀ a, acc = some a → a.2.state = OpState.applied) →
    ((l.foldl undoPick acc = none →
        acc = none ∧ ∀ kv ∈ l, kv.2.state ≠ OpState.applied) ∧
     (∀ r, l.foldl undoPick acc = some r →
        r.2.state = OpState.applied ∧ (acc = some r ∨ r ∈ l) ∧
        (∀ kv ∈ l, kv.2.state = OpState.applied →
          kv.2.last_event_id ≤ r.2.last_event_id) ∧
        (∀ a, acc = some a → a.2.last_event_id ≤ r.2.last_event_id))) := by
  induction l with
  | nil =>
    intro acc hacc
    refine ⟨fun h => ⟨h, by simp⟩, fun r hr => ?_⟩
    simp only [List.foldl_nil] at hr
    subst hr
    exact ⟨hacc r rfl, Or.inl rfl, by simp, fun a ha => by cases ha; exact le_refl _⟩
  | cons kv t ih =>
    intro acc hacc
    have hinv := undoPick_inv acc kv hacc
    have iht := ih (undoPick acc kv) hinv
    constructor
    · intro hnone
      obtain ⟨h1, h2⟩ := iht.1 hnone
      by_cases hkv : kv.2.state = OpState.applied
      · exfalso
        unfold undoPick at h1
        simp only [hkv, if_true] at h1
        cases acc with
        | none => exact Option.noConfusion h1
        | some c =>
          by_cases hlt : c.2.last_event_id < kv.2.last_event_id <;>
            simp [hlt] at h1
      · have hacc0 : acc = none := by
          unfold undoPick at h1
          simp only [hkv, if_false] at h1
          exact h1
        exact ⟨hacc0, by
          intro kv' hkv'
          rcases List.mem_cons.mp hkv' with h | h
          · rw [h]; exact hkv
          · exact h2 kv' h⟩
    · intro r hr
      obtain ⟨hra, hmem, hmax, hle⟩ := iht.2 r hr
      refine ⟨hra, ?_, ?_, ?_⟩
      · rcases hmem with h | h
        · unfold undoPick at h
          by_cases hkv : kv.2.state = OpState.applied
          · simp only [hkv, if_true] at h
            cases acc with
            | none => cases h; exact Or.inr (List.mem_cons_self _ _)
            | some c =>
              by_cases hlt : c.2.last_event_id < kv.2.last_event_id
              · simp only [hlt, if_true] at h
                cases h; exact Or.inr (List.mem_cons_self _ _)
              · simp only [hlt, if_false] at h
                exact Or.inl h
          · simp only [hkv, if_false] at h
            exact Or.inl h
        · exact Or.inr (List.mem_cons_of_mem _ h)
      · intro kv' hkv' hkv'a
        rcases List.mem_cons.mp hkv' with h | h
        · subst h
          unfold undoPick at hle
          simp only [hkv'a, if_true] at hle
          cases acc with
          | none => exact hle kv' rfl
          | some c =>
            by_cases hlt : c.2.last_event_id < kv'.2.last_event_id
            · simp only [hlt, if_true] at hle
              exact hle kv' rfl
            · simp only [hlt, if_false] at hle
              exact le_trans (not_lt.mp hlt) (hle c rfl)
        · exact hmax kv' h hkv'a
      · intro a ha
        subst ha
        unfold undoPick at hle
        by_cases hkv : kv.2.state = OpState.applied
        · simp only [hkv, if_true] at hle
          by_cases hlt : a.2.last_event_id < kv.2.last_event_id
          · simp only [hlt, if_true] at hle
            exact le_trans (le_of_lt hlt) (hle kv rfl)
          · simp only [hlt, if_false] at hle
            exact hle a rfl
        · simp only [hkv, if_false] at hle
          exact hle a rfl

/-- C2: when at least one entry is applied, the undo selection returns an
applied entry whose last_event_id is greatest among all applied entries
(most recently confirmed-or-redone, not most recently created); and in the
concrete scenario A (seq 1, applied), B (seq 2, applied), undo of B (seq 3),
the next undo selects A. -/
theorem undoCand_greatest (ops : OpMap)
    (h : ∃ kv ∈ ops, kv.2.state = OpState.applied) :
    (∃ r, undoCand ops = some r ∧ r ∈ ops ∧ r.2.state = OpState.applied ∧
      ∀ kv ∈ ops, kv.2.state = OpState.applied →
        kv.2.last_event_id ≤ r.2.last_event_id) ∧
    (undoCand (build_op_state
      [⟨1, "move", ⟨some "A", some "move", some ⟨["in"], ⟨"a", ".wav"⟩⟩,
          some ⟨["out"], ⟨"a", ".wav"⟩⟩⟩⟩,
       ⟨2, "move", ⟨some "B", some "move", some ⟨["in"], ⟨"b", ".wav"⟩⟩,
          some ⟨["out"], ⟨"b", ".wav"⟩⟩⟩⟩,
       ⟨3, "undo", ⟨some "B", some "move", some ⟨["out"], ⟨"b", ".wav"⟩⟩,
          some ⟨["in"], ⟨"b", ".wav"⟩⟩⟩⟩])).map Prod.fst = some "A" := by
  constructor
  · have hf := (undoCand_fold ops none (by intro a ha; cases ha)).2
    cases hc : undoCand ops with
    | none =>
      exfalso
      obtain ⟨kv, hmem, hap⟩ := h
      obtain ⟨-, hall⟩ := (undoCand_fold ops none (by intro a ha; cases ha)).1 hc
      exact hall kv hmem hap
    | some r =>
      obtain ⟨hra, hmem, hmax, -⟩ := hf r hc
      refine ⟨r, rfl, ?_, hra, hmax⟩
      rcases hmem with h' | h'
      · exact absurd h' (by simp)
      · exact h'
  · rfl

/-- Witness for C2 at a concrete one-entry map. -/
theorem undoCand_greatest_witness :
    ∃ r, undoCand [("A", ⟨"move", emptyPath, emptyPath, OpState.applied, emptyPath, 1⟩)]
        = some r ∧
      r ∈ [("A", (⟨"move", emptyPath, emptyPath, OpState.applied, emptyPath, 1⟩ : OpSt))] ∧
      r.2.state = OpState.applied ∧
      ∀ kv ∈ [("A", (⟨"move", emptyPath, emptyPath, OpState.applied, emptyPath, 1⟩ : OpSt))],
        kv.2.state = OpState.applied → kv.2.last_event_id ≤ r.2.last_event_id := by
  exact (undoCand_greatest
    [("A", ⟨"move", emptyPath, emptyPath, OpState.applied, emptyPath, 1⟩)]
    ⟨("A", ⟨"move", emptyPath, emptyPath, OpState.applied, emptyPath, 1⟩),
      by simp, rfl⟩).1

/-- Decimal digit characters of a natural number, most significant first;
reference rendering used to reason about the numeric disambiguator. -/
def decDigits (n : Nat) : List Char :=
  if _h : n < 10 then [Nat.digitChar n]
  else decDigits (n / 10) ++ [Nat.digitChar (n % 10)]
termination_by n
decreasing_by exact Nat.div_lt_self (by omega) (by omega)

theorem toDigitsCore_eq_decDigits :
    ∀ (f n : Nat) (ds : List Char), n < 10 ^ f → f ≠ 0 →
      Nat.toDigitsCore 10 f n ds = decDigits n ++ ds := by
  intro f
  induction f with
  | zero => intro n ds _ hf; exact absurd rfl hf
  | succ f ih =>
    intro n ds hlt _
    by_cases h10 : n / 10 = 0
    · have hn : n < 10 := by omega
      rw [decDigits]
      simp [Nat.toDigitsCore, h10, hn, Nat.mod_eq_of_lt hn]
    · have hge : 10 ≤ n := by
        rcases Nat.lt_or_ge n 10 with h | h
        · exact absurd (Nat.div_eq_of_lt h) h10
        · exact h
      have hfne : f ≠ 0 := by
        intro hf0
        subst hf0
        simp [pow_succ, pow_zero] at hlt
        omega
      have hdiv : n / 10 < 10 ^ f := by
        rw [Nat.div_lt_iff_lt_mul (by omega)]
        calc n < 10 ^ (f + 1) := hlt
        _ = 10 ^ f * 10 := by rw [pow_succ]
      rw [decDigits]
      simp only [Nat.toDigitsCore, h10, if_false, dif_neg (by omega : ¬ n < 10)]
      rw [ih (n / 10) (Nat.digitChar (n % 10) :: ds) hdiv hfne]
      simp

theorem repr_eq_decDigits (n : Nat) : Nat.repr n = (decDigits n).asString := by
  have hlt : n < 10 ^ (n + 1) :=
    lt_of_lt_of_le (Nat.lt_pow_self (by omega) n)
      (Nat.pow_le_pow_right (by omega) (by omega))
  unfold Nat.repr Nat.toDigits
  rw [toDigitsCore_eq_decDigits (n + 1) n [] hlt (by omega)]
  simp

theorem digitChar_toNat (n : Nat) (h : n < 10) :
    (Nat.digitChar n).toNat = 48 + n := by
  interval_cases n <;> rfl

theorem foldl_decDigits (n : Nat) : ∀ a : Nat,
    (decDigits n).foldl (fun a c => 10 * a + (c.toNat - 48)) a
      = a * 10 ^ (decDigits n).length + n := by
  induction n using Nat.strong_induction_on with
  | _ n ih =>
    intro a
    by_cases h : n < 10
    · rw [decDigits]
      simp [h, List.foldl, digitChar_toNat n h]
      omega
    · have hpos : 0 < n := by omega
      have hdiv : n / 10 < n := Nat.div_lt_self hpos (by omega)
      rw [decDigits, dif_neg h]
      rw [List.foldl_append, List.length_append]
      rw [ih (n / 10) hdiv a]
      have hm : n % 10 < 10 := Nat.mod_lt n (by omega)
      simp [List.foldl, digitChar_toNat (n % 10) hm, List.length]
      have hdm := Nat.div_add_mod n 10
      rw [pow_succ]
      ring_nf
      omega

theorem decDigits_injective : Function.Injective decDigits := by
  intro m n h
  have hm := foldl_decDigits m 0
  have hn := foldl_decDigits n 0
  rw [h] at hm
  rw [hm] at hn
  omega

theorem nat_repr_injective : Function.Injective Nat.repr := by
  intro m n h
  apply decDigits_injective
  have h2 : (decDigits m).asString = (decDigits n).asString := by
    rw [← repr_eq_decDigits, ← repr_eq_decDigits, h]
  exact congrArg String.data h2

/-- The modelled filesystem: the existing files and the existing
directories (as component lists). -/
structure FS where
  files : List FPath
  dirs : List (List String)
deriving DecidableEq

/-- Rendered OS name of a file, `stem ++ suffix`. -/
def FileName.render (n : FileName) : String := n.stem ++ n.suffix

/-- Full component list of a path, for checks that can also hit a
directory entry occupying the same OS path. -/
def FPath.comps (p : FPath) : List String := p.dir ++ [p.name.render]

/-- Python's `Path.exists()` on the modelled filesystem: a file or a
directory occupies the path. -/
def entryExists (fs : FS) (p : FPath) : Bool :=
  fs.files.contains p || fs.dirs.contains p.comps

/-- The numeric-disambiguator candidate, Python's
`dest.parent / f"{stem} ({i}){suf}"`. -/
def candAt (dest : FPath) (i : Nat) : FPath :=
  ⟨dest.dir, ⟨dest.name.stem ++ " (" ++ Nat.repr i ++ ")", dest.name.suffix⟩⟩

theorem append_sandwich_inj (a b : String) :
    Function.Injective fun i : Nat => a ++ Nat.repr i ++ b := by
  intro m n h
  apply nat_repr_injective
  have hd := congrArg String.data h
  simp only [String.data_append] at hd
  have h1 := List.append_cancel_right hd
  have h2 := List.append_cancel_left h1
  cases hm : Nat.repr m with
  | mk dm =>
    cases hn : Nat.repr n with
    | mk dn =>
      rw [hm, hn] at h2
      simp only at h2
      rw [h2]

theorem candAt_inj (dest : FPath) {i j : Nat} (h : candAt dest i = candAt dest j) :
    i = j := by
  have h1 : dest.name.stem ++ " (" ++ Nat.repr i ++ ")"
      = dest.name.stem ++ " (" ++ Nat.repr j ++ ")" :=
    congrArg (fun p => p.name.stem) h
  exact append_sandwich_inj (dest.name.stem ++ " (") ")" h1

theorem append_sandwich_inj2 (a b c : String) {m n : Nat}
    (h : a ++ Nat.repr m ++ b ++ c = a ++ Nat.repr n ++ b ++ c) : m = n := by
  apply nat_repr_injective
  have hd := congrArg String.data h
  simp only [String.data_append] at hd
  have h1 := List.append_cancel_right hd
  have h2 := List.append_cancel_right h1
  have h3 := List.append_cancel_left h2
  cases hm : Nat.repr m with
  | mk dm =>
    cases hn : Nat.repr n with
    | mk dn =>
      rw [hm, hn] at h3
      simp only at h3
      rw [h3]

theorem candAt_comps_inj (dest : FPath) {i j : Nat}
    (h : (candAt dest i).comps = (candAt dest j).comps) : i = j := by
  unfold FPath.comps at h
  have h1 := List.append_cancel_left h
  have h2 : (candAt dest i).name.render = (candAt dest j).name.render := by
    simpa using h1
  unfold FileName.render candAt at h2
  simp only at h2
  exact append_sandwich_inj2 (dest.name.stem ++ " (") ")" dest.name.suffix h2

theorem exists_free_cand (fs : FS) (dest : FPath) :
    ∃ i, entryExists fs (candAt dest (i + 1)) = false := by
  by_contra hc
  push_neg at hc
  have hall : ∀ i, entryExists fs (candAt dest (i + 1)) = true := by
    intro i
    cases hb : entryExists fs (candAt dest (i + 1)) with
    | false => exact absurd hb (hc i)
    | true => rfl
  classical
  set T : Finset (FPath ⊕ List String) :=
    fs.files.toFinset.image Sum.inl ∪ fs.dirs.toFinset.image Sum.inr with hT
  set G : Nat → FPath ⊕ List String := fun i =>
    if fs.files.contains (candAt dest (i + 1)) then Sum.inl (candAt dest (i + 1))
    else Sum.inr (candAt dest (i + 1)).comps with hG
  have hmem : ∀ i : Nat, G i ∈ T := by
    intro i
    have hi := hall i
    unfold entryExists at hi
    rw [Bool.or_eq_true] at hi
    by_cases hf : fs.files.contains (candAt dest (i + 1))
    · simp only [hG, hf, if_true, hT, Finset.mem_union, Finset.mem_image]
      exact Or.inl ⟨candAt dest (i + 1), by
        simp only [List.mem_toFinset]
        exact List.elem_iff.mp hf, rfl⟩
    · have hd : fs.dirs.contains (candAt dest (i + 1)).comps = true := by
        rcases hi with h | h
        · exact absurd h hf
        · exact h
      simp only [hG, hf, if_false, hT, Finset.mem_union, Finset.mem_image]
      exact Or.inr ⟨(candAt dest (i + 1)).comps, by
        simp only [List.mem_toFinset]
        exact List.elem_iff.mp hd, rfl⟩
  have hinj : Set.InjOn G ↑(Finset.range (T.card + 1)) := by
    intro i _ j _ hij
    simp only [hG] at hij
    by_cases hfi : fs.files.contains (candAt dest (i + 1)) <;>
      by_cases hfj : fs.files.contains (candAt dest (j + 1)) <;>
      simp only [hfi, hfj, if_true, if_false] at hij
    · have := candAt_inj dest (Sum.inl.inj hij)
      omega
    · exact absurd hij (by simp)
    · exact absurd hij (by simp)
    · have := candAt_comps_inj dest (Sum.inr.inj hij)
      omega
  have hcard := Finset.card_le_card_of_injOn G (fun a _ => hmem a) hinj
  rw [Finset.card_range] at hcard
  omega

/-- Collision-free destination naming, `_finalize_dest` in main.py: keep
`dest` if unused, otherwise try `f"{stem} ({i}){suf}"` for i = 1, 2, ...
until a name that does not exist is found. -/
def finalize_dest (fs : FS) (dest : FPath) : FPath :=
  if entryExists fs dest = false then dest
  else candAt dest (Nat.find (exists_free_cand fs dest) + 1)

/-- C6: `finalize_dest` is a pure function of the filesystem snapshot and
the requested destination: it returns dir/filename unchanged when that path
does not exist; otherwise it returns the numeric-disambiguator candidate
" (i)" before the extension for the least free i, every smaller positive
index being taken; consequently moving two files both named voice.wav into
the same destination folder in succession yields voice.wav and
voice (1).wav. -/
theorem finalize_dest_spec (fs : FS) (dest : FPath) :
    (entryExists fs dest = false → finalize_dest fs dest = dest) ∧
    (entryExists fs dest = true →
      ∃ i, 1 ≤ i ∧ finalize_dest fs dest = candAt dest i ∧
        entryExists fs (candAt dest i) = false ∧
        ∀ j, 1 ≤ j → j < i → entryExists fs (candAt dest j) = true) ∧
    finalize_dest ⟨[], [["out"]]⟩ ⟨["out"], ⟨"voice", ".wav"⟩⟩
      = ⟨["out"], ⟨"voice", ".wav"⟩⟩ ∧
    finalize_dest ⟨[⟨["out"], ⟨"voice", ".wav"⟩⟩], [["out"]]⟩
      ⟨["out"], ⟨"voice", ".wav"⟩⟩ = ⟨["out"], ⟨"voice (1)", ".wav"⟩⟩ := by
  refine ⟨?_, ?_, ?_, ?_⟩
  · intro h
    simp [finalize_dest, h]
  · intro h
    rw [finalize_dest, if_neg (by simp [h])]
    refine ⟨Nat.find (exists_free_cand fs dest) + 1, by omega, rfl,
      Nat.find_spec (exists_free_cand fs dest), ?_⟩
    intro j h1 hj
    have hj1 : j - 1 < Nat.find (exists_free_cand fs dest) := by omega
    have hmin := Nat.find_min (exists_free_cand fs dest) hj1
    have hjeq : j - 1 + 1 = j := by omega
    rw [hjeq] at hmin
    cases hb : entryExists fs (candAt dest j) with
    | false => exact absurd hb hmin
    | true => rfl
  · rfl
  · have h0 : Nat.find (exists_free_cand
        ⟨[⟨["out"], ⟨"voice", ".wav"⟩⟩], [["out"]]⟩ ⟨["out"], ⟨"voice", ".wav"⟩⟩) = 0 := by
      rw [Nat.find_eq_zero]
      rfl
    rw [finalize_dest, if_neg (by simp [entryExists]), h0]
    rfl

/-- Witness for C6: an unoccupied destination is returned unchanged. -/
theorem finalize_dest_spec_witness :
    finalize_dest ⟨[], [["out"]]⟩ ⟨["out"], ⟨"voice", ".wav"⟩⟩
      = ⟨["out"], ⟨"voice", ".wav"⟩⟩ :=
  (finalize_dest_spec ⟨[], [["out"]]⟩ ⟨["out"], ⟨"voice", ".wav"⟩⟩).1 rfl

/-- Inline collision-avoidance loop of `restore_deferred_if_any` in main.py:
take the plain name under the staging folder's parent when unused, otherwise
try "stem (i)suffix" for i = 1, 2, ... until an unused name is found. -/
def restore_dest (fs : FS) (parent : List String) (fname : FileName) : FPath :=
  if entryExists fs ⟨parent, fname⟩ = true then
    candAt ⟨parent, fname⟩ (Nat.find (exists_free_cand fs ⟨parent, fname⟩) + 1)
  else ⟨parent, fname⟩

/-- C9: on the same filesystem snapshot, the inline collision-avoidance
loop of the deferred-item restorer computes exactly the same destination as
`finalize_dest` applied to parent/filename. -/
theorem restore_dest_eq_finalize (fs : FS) (parent : List String) (fname : FileName) :
    restore_dest fs parent fname = finalize_dest fs ⟨parent, fname⟩ := by
  unfold restore_dest finalize_dest
  by_cases h : entryExists fs ⟨parent, fname⟩ = true
  · rw [if_pos h, if_neg (by simp [h])]
  · have hf : entryExists fs ⟨parent, fname⟩ = false := by
      cases hb : entryExists fs ⟨parent, fname⟩ with
      | false => rfl
      | true => exact absurd hb h
    rw [if_neg h, if_pos hf]

/-- ASCII-adequate model of Python's `str.lower()`, mapping `Char.toLower`
over the characters. -/
def strLower (s : String) : String := ⟨s.data.map Char.toLower⟩

/-- Membership in the reserved staging pair
`(EXCLUDE_DIR_NAME, DEFER_DIR_NAME)`. -/
def isReserved (s : String) : Bool := s = EXCLUDE_DIR_NAME || s = DEFER_DIR_NAME

/-- One configured input root, a row of the `inputs` table. -/
structure Root where
  path : List String
  enabled : Bool
  done : Bool
deriving DecidableEq

/-- Scanner configuration: the stored roots in stored order and the
recursive flag. -/
structure Cfg where
  inputs : List Root
  recursive : Bool
deriving DecidableEq

/-- Rendered path string, the sort key mirroring `sorted(...)` over paths. -/
def renderPath (p : FPath) : String := String.intercalate "/" p.comps

/-- Insertion into a list sorted by a string key. -/
def insertSorted {α : Type} (key : α → String) (x : α) : List α → List α
  | [] => [x]
  | y :: t => if key x ≤ key y then x :: y :: t else y :: insertSorted key x t

/-- Sorting by a string key, the model of Python's `sorted`. -/
def sortByKey {α : Type} (key : α → String) (l : List α) : List α :=
  l.foldr (insertSorted key) []

theorem mem_insertSorted {α : Type} (key : α → String) (x a : α) :
    ∀ l : List α, (a ∈ insertSorted key x l ↔ a = x ∨ a ∈ l) := by
  intro l
  induction l with
  | nil => simp [insertSorted]
  | cons y t ih =>
    by_cases h : key x ≤ key y
    · simp [insertSorted, h]
    · simp only [insertSorted, h, if_false, List.mem_cons, ih]
      tauto

theorem mem_sortByKey {α : Type} (key : α → String) (a : α) (l : List α) :
    a ∈ sortByKey key l ↔ a ∈ l := by
  induction l with
  | nil => simp [sortByKey]
  | cons y t ih =>
    show a ∈ insertSorted key y (sortByKey key t) ↔ _
    rw [mem_insertSorted]
    simp [ih]

/-- Scan contribution of one input root (the `add_from_dir` closure in
`load_files`).  A root that does not exist as a directory is skipped, as is
one named like a staging folder.  Recursive mode takes every descendant
file none of whose path components is reserved; flat mode takes direct
children (subdirectories, reserved-named or not, are never files and so are
never enqueued).  Files are kept when their lower-cased extension is in
AUDIO_EXTS, sorted like Python's `sorted`. -/
def add_from_dir (fs : FS) (recursive : Bool) (d : List String) : List FPath :=
  if fs.dirs.contains d = false then []
  else if isReserved ((d.getLast?).getD "") then []
  else if recursive then
    sortByKey renderPath (fs.files.filter (fun p =>
      d.isPrefixOf p.dir && !(p.comps.any isReserved)
        && AUDIO_EXTS.contains (strLower p.name.suffix)))
  else
    sortByKey renderPath (fs.files.filter (fun p =>
      p.dir == d && AUDIO_EXTS.contains (strLower p.name.suffix)))

/-- First-occurrence-wins deduplication pass of `load_files` (the `seen`
set over `str(p)`). -/
def dedupGo (seen : List FPath) : List FPath → List FPath
  | [] => []
  | p :: t => if seen.contains p then dedupGo seen t else p :: dedupGo (p :: seen) t

/-- Deduplicated queue, first occurrence wins. -/
def dedupPaths (l : List FPath) : List FPath := dedupGo [] l

theorem mem_dedupGo (a : FPath) :
    ∀ (l : List FPath) (seen : List FPath), a ∈ dedupGo seen l → a ∈ l := by
  intro l
  induction l with
  | nil => intro seen h; simp [dedupGo] at h
  | cons p t ih =>
    intro seen h
    unfold dedupGo at h
    by_cases hc : seen.contains p = true
    · rw [if_pos hc] at h
      exact List.mem_cons_of_mem _ (ih seen h)
    · rw [if_neg hc, List.mem_cons] at h
      rcases h with h | h
      · exact h ▸ List.mem_cons_self _ _
      · exact List.mem_cons_of_mem _ (ih (p :: seen) h)

theorem dedupGo_not_seen (a : FPath) :
    ∀ (l : List FPath) (seen : List FPath),
      a ∈ dedupGo seen l → seen.contains a = false := by
  intro l
  induction l with
  | nil => intro seen h; simp [dedupGo] at h
  | cons p t ih =>
    intro seen h
    unfold dedupGo at h
    by_cases hc : seen.contains p = true
    · rw [if_pos hc] at h
      exact ih seen h
    · rw [if_neg hc, List.mem_cons] at h
      rcases h with h | h
      · subst h
        cases hb : seen.contains a with
        | false => rfl
        | true => exact absurd hb hc
      · have h2 := ih (p :: seen) h
        cases hb : seen.contains a with
        | false => rfl
        | true =>
          exfalso
          have : (p :: seen).contains a = true := by
            simp only [List.contains_cons, hb, Bool.or_true]
          rw [h2] at this
          exact Bool.noConfusion this

theorem dedupGo_nodup : ∀ (l : List FPath) (seen : List FPath), (dedupGo seen l).Nodup := by
  intro l
  induction l with
  | nil => intro seen; simp [dedupGo]
  | cons p t ih =>
    intro seen
    unfold dedupGo
    by_cases hc : seen.contains p = true
    · rw [if_pos hc]
      exact ih seen
    · rw [if_neg hc]
      refine List.nodup_cons.mpr ⟨?_, ih (p :: seen)⟩
      intro hmem
      have h2 := dedupGo_not_seen p t (p :: seen) hmem
      simp [List.contains_cons] at h2

/-- The Directory Scanner (`load_files` queue construction): per-root
contributions in stored order for the enabled, not-done roots, then
first-occurrence deduplication. -/
def scan_files (cfg : Cfg) (fs : FS) : List FPath :=
  dedupPaths ((cfg.inputs.filter (fun r => r.enabled && !r.done)).flatMap
    (fun r => add_from_dir fs cfg.recursive r.path))

theorem mem_add_from_dir {fs : FS} {recursive : Bool} {d : List String} {p : FPath}
    (h : p ∈ add_from_dir fs recursive d) :
    AUDIO_EXTS.contains (strLower p.name.suffix) = true ∧
    (recursive = true →
      d.isPrefixOf p.dir = true ∧ p.comps.any isReserved = false) ∧
    (recursive = false → p.dir = d) := by
  unfold add_from_dir at h
  by_cases h1 : fs.dirs.contains d = false
  · rw [if_pos h1] at h
    simp at h
  · rw [if_neg h1] at h
    by_cases h2 : isReserved ((d.getLast?).getD "") = true
    · rw [if_pos h2] at h
      simp at h
    · rw [if_neg h2] at h
      cases recursive with
      | true =>
        rw [if_pos rfl, mem_sortByKey, List.mem_filter] at h
        obtain ⟨-, hp⟩ := h
        simp only [Bool.and_eq_true, Bool.not_eq_true'] at hp
        exact ⟨hp.2, fun _ => ⟨hp.1.1, hp.1.2⟩, fun hc => by simp at hc⟩
      | false =>
        rw [if_neg (by simp), mem_sortByKey, List.mem_filter] at h
        obtain ⟨-, hp⟩ := h
        simp only [Bool.and_eq_true, beq_iff_eq] at hp
        exact ⟨hp.2, fun hc => by simp at hc, fun _ => hp.1⟩

theorem mem_scan_files {cfg : Cfg} {fs : FS} {p : FPath}
    (h : p ∈ scan_files cfg fs) :
    ∃ r ∈ cfg.inputs, r.enabled = true ∧ r.done = false ∧
      p ∈ add_from_dir fs cfg.recursive r.path := by
  unfold scan_files dedupPaths at h
  have h2 := mem_dedupGo p _ [] h
  rw [List.mem_flatMap] at h2
  obtain ⟨r, hr, hp⟩ := h2
  rw [List.mem_filter] at hr
  obtain ⟨hrm, hre⟩ := hr
  rw [Bool.and_eq_true, Bool.not_eq_true'] at hre
  exact ⟨r, hrm, hre.1, hre.2, hp⟩

/-- C5 (amended): the Working Queue produced by a scan contains no
duplicate paths and only files whose lower-cased extension is in
AUDIO_EXTS, for every filesystem and configuration; a queue path never has
a reserved staging-folder name among its directory components when the
scan is recursive, or — in either mode — when no enabled, not-done root
itself has a reserved name among its components.  (Unconditionally the
claim fails: a non-recursive root configured inside a staging folder gets
scanned, see the counterexample.) -/
theorem scan_files_invariants (cfg : Cfg) (fs : FS) :
    (scan_files cfg fs).Nodup ∧
    (∀ p ∈ scan_files cfg fs, AUDIO_EXTS.contains (strLower p.name.suffix) = true) ∧
    (cfg.recursive = true →
      ∀ p ∈ scan_files cfg fs, ∀ c ∈ p.comps, isReserved c = false) ∧
    ((∀ r ∈ cfg.inputs, r.enabled = true → r.done = false →
        ∀ c ∈ r.path, isReserved c = false) →
      ∀ p ∈ scan_files cfg fs, ∀ c ∈ p.dir, isReserved c = false) := by
  refine ⟨dedupGo_nodup _ [], ?_, ?_, ?_⟩
  · intro p hp
    obtain ⟨r, -, -, -, hmem⟩ := mem_scan_files hp
    exact (mem_add_from_dir hmem).1
  · intro hrec p hp c hc
    obtain ⟨r, -, -, -, hmem⟩ := mem_scan_files hp
    have h2 := (mem_add_from_dir hmem).2.1 hrec
    have h3 := List.any_eq_false.mp h2.2 c hc
    cases hb : isReserved c with
    | false => rfl
    | true => exact absurd hb h3
  · intro hclean p hp c hc
    obtain ⟨r, hrm, hen, hdn, hmem⟩ := mem_scan_files hp
    cases hrec : cfg.recursive with
    | true =>
      rw [hrec] at hmem
      have h2 := (mem_add_from_dir hmem).2.1 rfl
      have hcc : c ∈ p.comps := by
        unfold FPath.comps
        exact List.mem_append_left _ hc
      have h3 := List.any_eq_false.mp h2.2 c hcc
      cases hb : isReserved c with
      | false => rfl
      | true => exact absurd hb h3
    | false =>
      rw [hrec] at hmem
      have h2 := (mem_add_from_dir hmem).2.2 rfl
      rw [h2] at hc
      exact hclean r hrm hen hdn c hc

/-- Witness for C5's amended invariants at a concrete recursive scan. -/
theorem scan_files_invariants_witness :
    (scan_files ⟨[⟨["in"], true, false⟩], true⟩
        ⟨[⟨["in"], ⟨"a", ".wav"⟩⟩], [["in"]]⟩).Nodup ∧
    (∀ p ∈ scan_files ⟨[⟨["in"], true, false⟩], true⟩
        ⟨[⟨["in"], ⟨"a", ".wav"⟩⟩], [["in"]]⟩, ∀ c ∈ p.comps, isReserved c = false) := by
  have h := scan_files_invariants ⟨[⟨["in"], true, false⟩], true⟩
      ⟨[⟨["in"], ⟨"a", ".wav"⟩⟩], [["in"]]⟩
  exact ⟨h.1, h.2.2.1 rfl⟩

/-- C5 counterexample: with a non-recursive scan and an enabled, not-done
root that itself lies inside a deferred staging folder, the produced queue
contains a path lying inside that staging folder (the staging folder
exists as a directory on the modelled filesystem), refuting the
unconditional reserved-subfolder invariant. -/
theorem scan_files_reserved_counterexample :
    scan_files ⟨[⟨["in", DEFER_DIR_NAME, "s"], true, false⟩], false⟩
      ⟨[⟨["in", DEFER_DIR_NAME, "s"], ⟨"a", ".wav"⟩⟩],
       [["in"], ["in", DEFER_DIR_NAME], ["in", DEFER_DIR_NAME, "s"]]⟩
      = [⟨["in", DEFER_DIR_NAME, "s"], ⟨"a", ".wav"⟩⟩] ∧
    DEFER_DIR_NAME ∈ (["in", DEFER_DIR_NAME, "s"] : List String) ∧
    ["in", DEFER_DIR_NAME] ∈ (⟨[⟨["in", DEFER_DIR_NAME, "s"], ⟨"a", ".wav"⟩⟩],
       [["in"], ["in", DEFER_DIR_NAME], ["in", DEFER_DIR_NAME, "s"]]⟩ : FS).dirs := by
  exact ⟨rfl, by simp, by simp⟩

/-- Result of a successful `shutil.move`: the source file disappears, the
destination file appears. -/
def moveFS (fs : FS) (src dest : FPath) : FS :=
  ⟨fs.files.erase src ++ [dest], fs.dirs⟩

/-- The bounded-retry mover `_try_move_with_retry` (tries = 10, fixed
backoff): an attempt fails when the source does not exist or the transient
oracle `att` reports a failure for that attempt; the move happens on the
first successful attempt, and failure of all ten leaves the filesystem
untouched. -/
def try_move_with_retry (att : List Bool) (fs : FS) (src dest : FPath) : Bool × FS :=
  if fs.files.contains src && (att.take 10).any id then
    (true, moveFS fs src dest)
  else (false, fs)

/-- Next autoincrement id of the history table. -/
def nextIdOf (hist : List HRow) : Nat := (hist.map HRow.id).foldr max 0 + 1

/-- `store.log(action, payload)`: append one history row, durably, with
the next primary-key id. -/
def logRow (hist : List HRow) (action : String) (p : Payload) : List HRow :=
  hist ++ [⟨nextIdOf hist, action, p⟩]

/-- Directories matched by `base.rglob(DEFER_DIR_NAME)`: strict descendants
of the base whose final component is the deferred staging name, in the
enumeration order of the modelled filesystem. -/
def rglobDirs (fs : FS) (base : List String) (pat : String) : List (List String) :=
  fs.dirs.filter (fun dd =>
    base.isPrefixOf dd && decide (base.length < dd.length)
      && ((dd.getLast?).getD "") == pat)

/-- Files of one directory, `sorted(d.iterdir())` restricted by
`f.is_file()`. -/
def listFilesIn (fs : FS) (d : List String) : List FPath :=
  sortByKey renderPath (fs.files.filter (fun f => f.dir == d))

/-- Per-file step of the restoration pass: compute the collision-free
destination in the staging folder's parent, move with bounded retry; a
success sets the restored flag, a failure appends a
`restore_deferred_error` history record (payload without op_id) and
continues. -/
def restoreFile (att : FPath → List Bool) (d : List String)
    (st : Bool × FS × List HRow) (f : FPath) : Bool × FS × List HRow :=
  let dest := restore_dest st.2.1 d.dropLast f.name
  let mv := try_move_with_retry (att f) st.2.1 f dest
  if mv.1 then (true, mv.2, st.2.2)
  else (st.1, st.2.1, logRow st.2.2 "restore_deferred_error" ⟨none, none, none, none⟩)

/-- Per-staging-folder step of the restoration pass: skip targets that do
not exist as directories, otherwise move every file found inside back to
the parent directory. -/
def restoreDir (att : FPath → List Bool) (st : Bool × FS × List HRow)
    (d : List String) : Bool × FS × List HRow :=
  if st.2.1.dirs.contains d = false then st
  else (listFilesIn st.2.1 d).foldl (restoreFile att d) st

/-- Per-root step of the restoration pass: disabled or done roots are
skipped, as are roots that do not exist; recursion enumerates every
deferred staging folder below the root, the flat mode exactly the direct
child staging folder. -/
def restoreRoot (recursive : Bool) (att : FPath → List Bool)
    (st : Bool × FS × List HRow) (r : Root) : Bool × FS × List HRow :=
  if !r.enabled || r.done then st
  else if st.2.1.dirs.contains r.path = false then st
  else
    let targets := if recursive then rglobDirs st.2.1 r.path DEFER_DIR_NAME
      else [r.path ++ [DEFER_DIR_NAME]]
    targets.foldl (restoreDir att) st

/-- The Deferred-Item Restorer `restore_deferred_if_any`: walk the enabled,
not-done roots and reintegrate the contents of their deferred staging
folders; report whether anything moved. -/
def restore_deferred_if_any (cfg : Cfg) (att : FPath → List Bool) (fs : FS)
    (hist : List HRow) : Bool × FS × List HRow :=
  cfg.inputs.foldl (restoreRoot cfg.recursive att) (false, fs, hist)

/-- Number of deferred-staging components above a file, the termination
measure of the scan/restore cycle. -/
def deferDepth (f : FPath) : Nat := f.dir.count DEFER_DIR_NAME

/-- Total deferred depth of the filesystem. -/
def fsMeasure (fs : FS) : Nat := (fs.files.map deferDepth).sum

/-- Progress relation between restoration states: the measure never grows,
and a newly set restored flag witnesses a strict decrease. -/
def MProg (st st' : Bool × FS × List HRow) : Prop :=
  fsMeasure st'.2.1 ≤ fsMeasure st.2.1 ∧
  (st'.1 = true → st.1 = true ∨ fsMeasure st'.2.1 < fsMeasure st.2.1)

theorem MProg_rfl (st : Bool × FS × List HRow) : MProg st st :=
  ⟨le_refl _, fun h => Or.inl h⟩

theorem MProg_trans {a b c : Bool × FS × List HRow}
    (h1 : MProg a b) (h2 : MProg b c) : MProg a c := by
  refine ⟨le_trans h2.1 h1.1, ?_⟩
  intro hc
  rcases h2.2 hc with hb | hb
  · rcases h1.2 hb with ha | ha
    · exact Or.inl ha
    · exact Or.inr (lt_of_le_of_lt h2.1 ha)
  · exact Or.inr (lt_of_lt_of_le hb h1.1)

theorem MProg_foldl {α : Type} (step : (Bool × FS × List HRow) → α → (Bool × FS × List HRow))
    (l : List α) (h : ∀ st a, a ∈ l → MProg st (step st a)) :
    ∀ st, MProg st (l.foldl step st) := by
  induction l with
  | nil => intro st; exact MProg_rfl st
  | cons a t ih =>
    intro st
    exact MProg_trans (h st a (List.mem_cons_self _ _))
      (ih (fun st' b hb => h st' b (List.mem_cons_of_mem _ hb)) (step st a))

theorem restore_dest_dir (fs : FS) (parent : List String) (n : FileName) :
    (restore_dest fs parent n).dir = parent := by
  unfold restore_dest
  by_cases h : entryExists fs ⟨parent, n⟩ = true
  · rw [if_pos h]; rfl
  · rw [if_neg h]

theorem sum_map_erase_move (g : FPath → Nat) (l : List FPath) (src dest : FPath)
    (h : src ∈ l) :
    ((l.erase src ++ [dest]).map g).sum + g src = (l.map g).sum + g dest := by
  have h1 := List.sum_map_erase g h
  rw [List.map_append, List.sum_append]
  simp only [List.map_cons, List.map_nil, List.sum_cons, List.sum_nil]
  omega

theorem moveFS_measure {fs : FS} {src dest : FPath}
    (h : fs.files.contains src = true)
    (hlt : deferDepth dest < deferDepth src) :
    fsMeasure (moveFS fs src dest) < fsMeasure fs := by
  have hmem : src ∈ fs.files := List.elem_iff.mp h
  have h1 := sum_map_erase_move deferDepth fs.files src dest hmem
  unfold fsMeasure moveFS
  simp only
  omega

theorem mem_listFilesIn {fs : FS} {d : List String} {f : FPath}
    (h : f ∈ listFilesIn fs d) : f.dir = d ∧ f ∈ fs.files := by
  unfold listFilesIn at h
  rw [mem_sortByKey, List.mem_filter] at h
  exact ⟨beq_iff_eq.mp h.2, h.1⟩

theorem deferDepth_drop {d : List String}
    (hd : (d.getLast?).getD "" = DEFER_DIR_NAME) :
    d.dropLast.count DEFER_DIR_NAME + 1 = d.count DEFER_DIR_NAME := by
  have hne : d ≠ [] := by
    intro h0
    rw [h0] at hd
    simp [DEFER_DIR_NAME] at hd
  have hlast : d.getLast hne = DEFER_DIR_NAME := by
    rw [List.getLast?_eq_getLast d hne] at hd
    simpa using hd
  conv_rhs => rw [← List.dropLast_append_getLast hne]
  rw [List.count_append, hlast]
  simp

theorem restoreFile_MProg (att : FPath → List Bool) (d : List String)
    (hd : (d.getLast?).getD "" = DEFER_DIR_NAME)
    (st : Bool × FS × List HRow) (f : FPath) (hf : f.dir = d) :
    MProg st (restoreFile att d st f) := by
  obtain ⟨b, fs, hist⟩ := st
  unfold restoreFile try_move_with_retry
  simp only
  by_cases hcond : (fs.files.contains f && ((att f).take 10).any id) = true
  · rw [if_pos hcond]
    simp only [if_true]
    have hcont : fs.files.contains f = true := by
      rw [Bool.and_eq_true] at hcond
      exact hcond.1
    have hdd : (restore_dest fs d.dropLast f.name).dir = d.dropLast :=
      restore_dest_dir fs d.dropLast f.name
    have hlt : deferDepth (restore_dest fs d.dropLast f.name) < deferDepth f := by
      unfold deferDepth
      rw [hdd, hf]
      have := deferDepth_drop hd
      omega
    have hm := moveFS_measure hcont hlt
    exact ⟨le_of_lt hm, fun _ => Or.inr hm⟩
  · rw [if_neg hcond]
    simp only [if_false]
    exact ⟨le_refl _, fun h => Or.inl h⟩

theorem restoreDir_MProg (att : FPath → List Bool)
    (st : Bool × FS × List HRow) (d : List String)
    (hd : (d.getLast?).getD "" = DEFER_DIR_NAME) :
    MProg st (restoreDir att st d) := by
  unfold restoreDir
  by_cases hc : st.2.1.dirs.contains d = false
  · rw [if_pos hc]
    exact MProg_rfl st
  · rw [if_neg hc]
    exact MProg_foldl (restoreFile att d) (listFilesIn st.2.1 d)
      (fun st' f hfm => restoreFile_MProg att d hd st' f (mem_listFilesIn hfm).1) st

theorem restoreRoot_MProg (recursive : Bool) (att : FPath → List Bool)
    (st : Bool × FS × List HRow) (r : Root) :
    MProg st (restoreRoot recursive att st r) := by
  unfold restoreRoot
  by_cases h1 : (!r.enabled || r.done) = true
  · rw [if_pos h1]
    exact MProg_rfl st
  · rw [if_neg h1]
    by_cases h2 : st.2.1.dirs.contains r.path = false
    · rw [if_pos h2]
      exact MProg_rfl st
    · rw [if_neg h2]
      apply MProg_foldl (restoreDir att)
      intro st' d hdm
      cases recursive with
      | true =>
        rw [if_pos rfl] at hdm
        unfold rglobDirs at hdm
        rw [List.mem_filter, Bool.and_eq_true] at hdm
        exact restoreDir_MProg att st' d (beq_iff_eq.mp hdm.2.2)
      | false =>
        rw [if_neg (by simp), List.mem_singleton] at hdm
        subst hdm
        refine restoreDir_MProg att st' _ ?_
        rw [List.getLast?_concat]
        rfl

theorem restore_MProg (cfg : Cfg) (att : FPath → List Bool) (fs : FS)
    (hist : List HRow) :
    MProg (false, fs, hist) (restore_deferred_if_any cfg att fs hist) := by
  unfold restore_deferred_if_any
  exact MProg_foldl (restoreRoot cfg.recursive att) cfg.inputs
    (fun st r _ => restoreRoot_MProg cfg.recursive att st r) (false, fs, hist)

theorem restore_measure (cfg : Cfg) (att : FPath → List Bool) (fs : FS)
    (hist : List HRow) :
    fsMeasure (restore_deferred_if_any cfg att fs hist).2.1 ≤ fsMeasure fs ∧
    ((restore_deferred_if_any cfg att fs hist).1 = true →
      fsMeasure (restore_deferred_if_any cfg att fs hist).2.1 < fsMeasure fs) := by
  have h := restore_MProg cfg att fs hist
  refine ⟨h.1, fun hr => ?_⟩
  rcases h.2 hr with h0 | h0
  · exact Bool.noConfusion h0
  · exact h0

/-- Per-pass outcome of the scan/restore cycle: whether the scanned queue
was empty, and what the restorer reported when it was invoked. -/
structure PassInfo where
  queueEmpty : Bool
  restored : Option Bool
deriving DecidableEq

/-- Result of the scan/restore cycle of `load_files`. -/
structure LoadOut where
  files : List FPath
  fs : FS
  hist : List HRow
  trace : List PassInfo
  completed : Bool
deriving DecidableEq

/-- The scan/restore cycle of `load_files`: scan; when the queue is empty,
invoke the restorer, and re-run the cycle exactly when it reports true.
The fuel argument only bounds the recursion depth of the embedding;
`load_files` supplies enough fuel for the cycle to complete, because the
filesystem measure strictly decreases on every true report. -/
def load_files_go (cfg : Cfg) (att : Nat → FPath → List Bool) :
    Nat → Nat → FS → List HRow → LoadOut
  | 0, _, fs, hist => ⟨[], fs, hist, [], false⟩
  | fuel + 1, k, fs, hist =>
    let q := scan_files cfg fs
    if q.isEmpty = false then ⟨q, fs, hist, [⟨false, none⟩], true⟩
    else
      let rr := restore_deferred_if_any cfg (att k) fs hist
      if rr.1 then
        let out := load_files_go cfg att fuel (k + 1) rr.2.1 rr.2.2
        { out with trace := ⟨true, some true⟩ :: out.trace }
      else ⟨[], rr.2.1, rr.2.2, [⟨true, some false⟩], true⟩

/-- `load_files` of main.py: the scan/restore cycle, run to completion. -/
def load_files (cfg : Cfg) (att : Nat → FPath → List Bool) (fs : FS)
    (hist : List HRow) : LoadOut :=
  load_files_go cfg att (fsMeasure fs + 1) 0 fs hist

/-- Discipline of the scan/restore cycle: the restorer runs only in a pass
whose scan found the queue empty; after a true report exactly one further
pass (one more scan) follows; a false report ends the cycle with the empty
queue accepted as final. -/
def TraceOK (out : LoadOut) : Prop :=
  (∀ pi ∈ out.trace, pi.restored.isSome = true → pi.queueEmpty = true) ∧
  (out.completed = true → ∀ i pi, out.trace[i]? = some pi →
    pi.restored = some true → i + 1 < out.trace.length) ∧
  (∀ i pi, out.trace[i]? = some pi → pi.restored = some false →
    i + 1 = out.trace.length ∧ out.files = [])

theorem load_files_go_trace_ne (cfg : Cfg) (att : Nat → FPath → List Bool)
    (fuel k : Nat) (fs : FS) (hist : List HRow)
    (h : (load_files_go cfg att fuel k fs hist).completed = true) :
    (load_files_go cfg att fuel k fs hist).trace ≠ [] := by
  cases fuel with
  | zero => exact absurd h (by simp [load_files_go])
  | succ fuel =>
    unfold load_files_go
    by_cases hq : (scan_files cfg fs).isEmpty = false
    · rw [if_pos hq]
      simp
    · rw [if_neg hq]
      by_cases hr : (restore_deferred_if_any cfg (att k) fs hist).1 = true
      · rw [if_pos hr]
        simp
      · rw [if_neg hr]
        simp

theorem load_files_go_spec (cfg : Cfg) (att : Nat → FPath → List Bool) :
    ∀ (fuel k : Nat) (fs : FS) (hist : List HRow),
      TraceOK (load_files_go cfg att fuel k fs hist) ∧
      (fsMeasure fs < fuel →
        (load_files_go cfg att fuel k fs hist).completed = true) := by
  intro fuel
  induction fuel with
  | zero =>
    intro k fs hist
    refine ⟨⟨?_, ?_, ?_⟩, ?_⟩
    · intro pi hpi
      simp [load_files_go] at hpi
    · intro hc
      exact absurd hc (by simp [load_files_go])
    · intro i pi hpi
      simp [load_files_go] at hpi
    · intro h
      omega
  | succ fuel ih =>
    intro k fs hist
    unfold load_files_go
    by_cases hq : (scan_files cfg fs).isEmpty = false
    · rw [if_pos hq]
      refine ⟨⟨?_, ?_, ?_⟩, fun _ => rfl⟩
      · intro pi hpi hs
        simp at hpi
        rw [hpi] at hs
        simp at hs
      · intro _ i pi hpi hres
        cases i with
        | zero =>
          simp at hpi
          rw [← hpi] at hres
          simp at hres
        | succ j => simp at hpi
      · intro i pi hpi hres
        cases i with
        | zero =>
          simp at hpi
          rw [← hpi] at hres
          simp at hres
        | succ j => simp at hpi
    · rw [if_neg hq]
      by_cases hr : (restore_deferred_if_any cfg (att k) fs hist).1 = true
      · rw [if_pos hr]
        obtain ⟨⟨iha, ihb, ihc⟩, ihd⟩ :=
          ih (k + 1) (restore_deferred_if_any cfg (att k) fs hist).2.1
            (restore_deferred_if_any cfg (att k) fs hist).2.2
        have hlt := (restore_measure cfg (att k) fs hist).2 hr
        refine ⟨⟨?_, ?_, ?_⟩, ?_⟩
        · intro pi hpi hs
          simp only [List.mem_cons] at hpi
          rcases hpi with h | h
          · rw [h]
          · exact iha pi h hs
        · intro hc i pi hpi hres
          simp only at hc hpi ⊢
          cases i with
          | zero =>
            have hne := load_files_go_trace_ne cfg att fuel (k + 1)
              (restore_deferred_if_any cfg (att k) fs hist).2.1
              (restore_deferred_if_any cfg (att k) fs hist).2.2 hc
            simp only [List.length_cons]
            have : (load_files_go cfg att fuel (k + 1)
                (restore_deferred_if_any cfg (att k) fs hist).2.1
                (restore_deferred_if_any cfg (att k) fs hist).2.2).trace.length ≠ 0 :=
              fun h0 => hne (List.eq_nil_of_length_eq_zero h0)
            omega
          | succ j =>
            simp only [List.getElem?_cons_succ] at hpi
            have := ihb hc j pi hpi hres
            simp only [List.length_cons]
            omega
        · intro i pi hpi hres
          cases i with
          | zero =>
            simp only [List.getElem?_cons_zero, Option.some.injEq] at hpi
            rw [← hpi] at hres
            simp at hres
          | succ j =>
            simp only [List.getElem?_cons_succ] at hpi
            obtain ⟨h1, h2⟩ := ihc j pi hpi hres
            constructor
            · simp only [List.length_cons]
              omega
            · exact h2
        · intro hm
          exact ihd (by omega)
      · rw [if_neg hr]
        refine ⟨⟨?_, ?_, ?_⟩, fun _ => rfl⟩
        · intro pi hpi hs
          simp at hpi
          rw [hpi]
        · intro _ i pi hpi hres
          cases i with
          | zero =>
            simp at hpi
            rw [← hpi] at hres
            simp at hres
          | succ j => simp at hpi
        · intro i pi hpi hres
          cases i with
          | zero => simp
          | succ j => simp at hpi

/-- C4: the deferred-item restorer is invoked only in a pass whose scan
found the Working Queue empty; when it reports true the Scanner is re-run
exactly once more (exactly one further pass, beginning with a scan,
follows); when it reports false the Scanner is not re-invoked and the
empty queue is accepted as final; and the scan/restore cycle never loops
unboundedly: the measure-derived fuel used by `load_files` always
completes the cycle, every true report strictly shrinking the measure. -/
theorem load_files_restore_discipline (cfg : Cfg) (att : Nat → FPath → List Bool)
    (fuel k : Nat) (fs : FS) (hist : List HRow) :
    TraceOK (load_files_go cfg att fuel k fs hist) ∧
    (fsMeasure fs < fuel → (load_files_go cfg att fuel k fs hist).completed = true) ∧
    (load_files cfg att fs hist).completed = true := by
  refine ⟨(load_files_go_spec cfg att fuel k fs hist).1,
    (load_files_go_spec cfg att fuel k fs hist).2, ?_⟩
  unfold load_files
  exact (load_files_go_spec cfg att (fsMeasure fs + 1) 0 fs hist).2 (by omega)

/-- Witness for C4: one deferred file, restored in the first pass; the
cycle completes and the true-report pass is followed by one more pass. -/
theorem load_files_restore_discipline_witness :
    (load_files ⟨[⟨["in"], true, false⟩], true⟩ (fun _ _ => [true])
        ⟨[⟨["in", DEFER_DIR_NAME], ⟨"b", ".wav"⟩⟩], [["in"], ["in", DEFER_DIR_NAME]]⟩
        []).completed = true ∧
    0 + 1 < (load_files ⟨[⟨["in"], true, false⟩], true⟩ (fun _ _ => [true])
        ⟨[⟨["in", DEFER_DIR_NAME], ⟨"b", ".wav"⟩⟩], [["in"], ["in", DEFER_DIR_NAME]]⟩
        []).trace.length := by
  have h := load_files_restore_discipline ⟨[⟨["in"], true, false⟩], true⟩
    (fun _ _ => [true]) 2 0
    ⟨[⟨["in", DEFER_DIR_NAME], ⟨"b", ".wav"⟩⟩], [["in"], ["in", DEFER_DIR_NAME]]⟩ []
  obtain ⟨htr, -, hcomp⟩ := h
  unfold TraceOK at htr
  refine ⟨hcomp, ?_⟩
  exact htr.2.1 hcomp 0 ⟨true, some true⟩ (by rfl) rfl

theorem restore_dest_not_exists (fs : FS) (parent : List String) (n : FileName) :
    entryExists fs (restore_dest fs parent n) = false := by
  unfold restore_dest
  by_cases h : entryExists fs ⟨parent, n⟩ = true
  · rw [if_pos h]
    exact Nat.find_spec (exists_free_cand fs ⟨parent, n⟩)
  · rw [if_neg h]
    cases hb : entryExists fs ⟨parent, n⟩ with
    | false => rfl
    | true => exact absurd hb h

theorem not_exists_not_mem {fs : FS} {p : FPath}
    (h : entryExists fs p = false) : p ∉ fs.files := by
  intro hmem
  unfold entryExists at h
  rw [Bool.or_eq_false_iff] at h
  have h2 : fs.files.contains p = true := List.elem_iff.mpr hmem
  rw [h.1] at h2
  exact Bool.noConfusion h2

theorem insertSorted_nodup {α : Type} (key : α → String) (x : α) (l : List α)
    (h : l.Nodup) (hx : x ∉ l) : (insertSorted key x l).Nodup := by
  induction l with
  | nil => simp [insertSorted]
  | cons y t ih =>
    unfold insertSorted
    by_cases hc : key x ≤ key y
    · rw [if_pos hc]
      refine List.nodup_cons.mpr ⟨?_, h⟩
      exact hx
    · rw [if_neg hc]
      rw [List.nodup_cons] at h ⊢
      refine ⟨?_, ih h.2 (fun hm => hx (List.mem_cons_of_mem _ hm))⟩
      intro hm
      rw [mem_insertSorted] at hm
      rcases hm with hm | hm
      · exact hx (hm ▸ List.mem_cons_self _ _)
      · exact h.1 hm

theorem sortByKey_nodup {α : Type} (key : α → String) (l : List α)
    (h : l.Nodup) : (sortByKey key l).Nodup := by
  induction l with
  | nil => simp [sortByKey]
  | cons y t ih =>
    rw [List.nodup_cons] at h
    show (insertSorted key y (sortByKey key t)).Nodup
    refine insertSorted_nodup key y _ (ih h.2) ?_
    rw [mem_sortByKey]
    exact h.1

theorem listFilesIn_nodup {fs : FS} (d : List String) (h : fs.files.Nodup) :
    (listFilesIn fs d).Nodup :=
  sortByKey_nodup renderPath _ (List.Nodup.filter _ h)

/-- Structural facts preserved by every step of a restoration pass: the
directory set is untouched, the no-duplicates property of the file list is
kept, and the restored flag is never cleared. -/
def RPres (st st' : Bool × FS × List HRow) : Prop :=
  st'.2.1.dirs = st.2.1.dirs ∧
  (st.2.1.files.Nodup → st'.2.1.files.Nodup) ∧
  (st.1 = true → st'.1 = true)

theorem RPres_rfl (st : Bool × FS × List HRow) : RPres st st :=
  ⟨rfl, fun h => h, fun h => h⟩

theorem RPres_trans {a b c : Bool × FS × List HRow}
    (h1 : RPres a b) (h2 : RPres b c) : RPres a c :=
  ⟨h2.1.trans h1.1, fun h => h2.2.1 (h1.2.1 h), fun h => h2.2.2 (h1.2.2 h)⟩

theorem RPres_foldl {α : Type} (step : (Bool × FS × List HRow) → α → (Bool × FS × List HRow))
    (l : List α) (h : ∀ st a, a ∈ l → RPres st (step st a)) :
    ∀ st, RPres st (l.foldl step st) := by
  induction l with
  | nil => intro st; exact RPres_rfl st
  | cons a t ih =>
    intro st
    exact RPres_trans (h st a (List.mem_cons_self _ _))
      (ih (fun st' b hb => h st' b (List.mem_cons_of_mem _ hb)) (step st a))

theorem restoreFile_RPres (att : FPath → List Bool) (d : List String)
    (st : Bool × FS × List HRow) (f : FPath) :
    RPres st (restoreFile att d st f) := by
  obtain ⟨b, fs, hist⟩ := st
  unfold restoreFile try_move_with_retry
  simp only
  by_cases hcond : (fs.files.contains f && ((att f).take 10).any id) = true
  · rw [if_pos hcond]
    simp only [if_true]
    refine ⟨rfl, ?_, fun _ => rfl⟩
    intro hnd
    unfold moveFS
    simp only
    have hne := restore_dest_not_exists fs d.dropLast f.name
    have hnm := not_exists_not_mem hne
    have h1 : (restore_dest fs d.dropLast f.name) ∉ fs.files.erase f :=
      fun hm => hnm (List.mem_of_mem_erase hm)
    rw [List.nodup_append]
    exact ⟨hnd.erase f, List.nodup_singleton _, by simpa using h1⟩
  · rw [if_neg hcond]
    simp only [if_false]
    exact ⟨rfl, fun h => h, fun h => h⟩

theorem restoreDir_RPres (att : FPath → List Bool)
    (st : Bool × FS × List HRow) (d : List String) :
    RPres st (restoreDir att st d) := by
  unfold restoreDir
  by_cases hc : st.2.1.dirs.contains d = false
  · rw [if_pos hc]
    exact RPres_rfl st
  · rw [if_neg hc]
    exact RPres_foldl (restoreFile att d) _
      (fun st' f _ => restoreFile_RPres att d st' f) st

theorem restoreRoot_RPres (recursive : Bool) (att : FPath → List Bool)
    (st : Bool × FS × List HRow) (r : Root) :
    RPres st (restoreRoot recursive att st r) := by
  unfold restoreRoot
  by_cases h1 : (!r.enabled || r.done) = true
  · rw [if_pos h1]
    exact RPres_rfl st
  · rw [if_neg h1]
    by_cases h2 : st.2.1.dirs.contains r.path = false
    · rw [if_pos h2]
      exact RPres_rfl st
    · rw [if_neg h2]
      exact RPres_foldl (restoreDir att) _
        (fun st' d _ => restoreDir_RPres att st' d) st

theorem restore_RPres (cfg : Cfg) (att : FPath → List Bool) (fs : FS)
    (hist : List HRow) :
    RPres (false, fs, hist) (restore_deferred_if_any cfg att fs hist) :=
  RPres_foldl (restoreRoot cfg.recursive att) cfg.inputs
    (fun st r _ => restoreRoot_RPres cfg.recursive att st r) (false, fs, hist)

/-- No staging folder is nested inside another staging folder: every
directory path contains the deferred name at most once. -/
def NoNest (fs : FS) : Prop := ∀ d ∈ fs.dirs, d.count DEFER_DIR_NAME ≤ 1

/-- No file of the filesystem sits directly in directory `e`. -/
def NoDeferFilesIn (fs : FS) (e : List String) : Prop := ∀ f ∈ fs.files, f.dir ≠ e

/-- The staging folders a restoration pass actually processes: existing
directories named like the deferred staging folder, reachable from an
enabled, not-done, existing root under the configured mode. -/
def processedDir (cfg : Cfg) (fs : FS) (d : List String) : Prop :=
  d ∈ fs.dirs ∧ (d.getLast?).getD "" = DEFER_DIR_NAME ∧
  ∃ r ∈ cfg.inputs, r.enabled = true ∧ r.done = false ∧ r.path ∈ fs.dirs ∧
    (cfg.recursive = true → r.path.isPrefixOf d = true ∧ r.path.length < d.length) ∧
    (cfg.recursive = false → d = r.path ++ [DEFER_DIR_NAME])

theorem foldl_pres {α β : Type} (step : β → α → β) (l : List α) (P : β → Prop)
    (h : ∀ st a, a ∈ l → P st → P (step st a)) :
    ∀ st, P st → P (l.foldl step st) := by
  induction l with
  | nil => intro st hp; exact hp
  | cons a t ih =>
    intro st hp
    exact ih (fun st' b hb => h st' b (List.mem_cons_of_mem _ hb)) (step st a)
      (h st a (List.mem_cons_self _ _) hp)

theorem restoreFile_eq_move (att : FPath → List Bool) (d : List String)
    (st : Bool × FS × List HRow) (f : FPath)
    (hc : st.2.1.files.contains f = true)
    (hs : ((att f).take 10).any id = true) :
    restoreFile att d st f =
      (true, moveFS st.2.1 f (restore_dest st.2.1 d.dropLast f.name), st.2.2) := by
  obtain ⟨b, fs, hist⟩ := st
  simp only at hc hs
  unfold restoreFile try_move_with_retry
  have hm : f ∈ fs.files := List.elem_iff.mp hc
  simp [hc, hs, hm]

theorem ends_defer_count_pos {e : List String}
    (he : (e.getLast?).getD "" = DEFER_DIR_NAME) :
    1 ≤ e.count DEFER_DIR_NAME := by
  have := deferDepth_drop he
  omega

theorem restoreFile_stable (att : FPath → List Bool) (d : List String)
    (st : Bool × FS × List HRow) (f : FPath)
    (hdc : d.count DEFER_DIR_NAME ≤ 1)
    (hd : (d.getLast?).getD "" = DEFER_DIR_NAME)
    {e : List String} (he : (e.getLast?).getD "" = DEFER_DIR_NAME)
    (hP : NoDeferFilesIn st.2.1 e) :
    NoDeferFilesIn (restoreFile att d st f).2.1 e := by
  have hdrop : d.dropLast.count DEFER_DIR_NAME = 0 := by
    have := deferDepth_drop hd
    omega
  obtain ⟨b, fs, hist⟩ := st
  unfold restoreFile try_move_with_retry
  simp only
  by_cases hcond : (fs.files.contains f && ((att f).take 10).any id) = true
  · rw [if_pos hcond]
    simp only [if_true]
    intro g hg
    unfold moveFS at hg
    simp only at hg
    rw [List.mem_append] at hg
    rcases hg with hg | hg
    · exact hP g (List.mem_of_mem_erase hg)
    · rw [List.mem_singleton] at hg
      subst hg
      rw [restore_dest_dir]
      intro h0
      rw [h0] at hdrop
      have := ends_defer_count_pos he
      omega
  · rw [if_neg hcond]
    simp only [if_false]
    exact hP

theorem restoreDir_listing_progress (att : FPath → List Bool) (d : List String)
    (hne : d ≠ [])
    (hsucc : ∀ f, ((att f).take 10).any id = true) :
    ∀ (l : List FPath) (st : Bool × FS × List HRow),
      l.Nodup → st.2.1.files.Nodup →
      (∀ f ∈ l, f ∈ st.2.1.files) →
      (∀ g ∈ st.2.1.files, g.dir = d → g ∈ l) →
      ∀ g ∈ (l.foldl (restoreFile att d) st).2.1.files, g.dir ≠ d := by
  have hdd : d.dropLast ≠ d := by
    intro h0
    have := List.length_dropLast d
    rw [h0] at this
    cases d with
    | nil => exact hne rfl
    | cons a t => simp at this
  intro l
  induction l with
  | nil =>
    intro st _ _ _ hexh g hg hgd
    exact absurd (hexh g hg hgd) (List.not_mem_nil g)
  | cons f t ih =>
    intro st hlnd hfnd hsub hexh
    have hfmem : f ∈ st.2.1.files := hsub f (List.mem_cons_self _ _)
    have hc : st.2.1.files.contains f = true := List.elem_iff.mpr hfmem
    rw [List.foldl_cons, restoreFile_eq_move att d st f hc (hsucc f)]
    rw [List.nodup_cons] at hlnd
    set dest := restore_dest st.2.1 d.dropLast f.name with hdest
    have hdnm : dest ∉ st.2.1.files :=
      not_exists_not_mem (restore_dest_not_exists st.2.1 d.dropLast f.name)
    apply ih (true, moveFS st.2.1 f dest, st.2.2) hlnd.2
    · unfold moveFS
      simp only
      rw [List.nodup_append]
      refine ⟨hfnd.erase f, List.nodup_singleton _, ?_⟩
      intro x hx hxx
      rw [List.mem_singleton] at hxx
      exact hdnm (List.mem_of_mem_erase (hxx ▸ hx))
    · intro g hg
      have hgf : g ≠ f := fun h0 => hlnd.1 (h0 ▸ hg)
      have hgm : g ∈ st.2.1.files := hsub g (List.mem_cons_of_mem _ hg)
      unfold moveFS
      simp only
      rw [List.mem_append]
      exact Or.inl ((List.Nodup.mem_erase_iff hfnd).mpr ⟨hgf, hgm⟩)
    · intro g hg hgd
      unfold moveFS at hg
      simp only at hg
      rw [List.mem_append] at hg
      rcases hg with hg | hg
      · have hgm := List.mem_of_mem_erase hg
        have := hexh g hgm hgd
        rw [List.mem_cons] at this
        rcases this with h0 | h0
        · exfalso
          exact ((List.Nodup.mem_erase_iff hfnd).mp (h0 ▸ hg)).1 rfl
        · exact h0
      · exfalso
        rw [List.mem_singleton] at hg
        rw [hg, hdest, restore_dest_dir] at hgd
        exact hdd hgd

theorem restoreDir_progress (att : FPath → List Bool)
    (st : Bool × FS × List HRow) (d : List String)
    (hd : (d.getLast?).getD "" = DEFER_DIR_NAME)
    (hdm : d ∈ st.2.1.dirs)
    (hnodup : st.2.1.files.Nodup)
    (hsucc : ∀ f, ((att f).take 10).any id = true) :
    NoDeferFilesIn (restoreDir att st d).2.1 d := by
  have hne : d ≠ [] := by
    intro h0
    rw [h0] at hd
    simp [DEFER_DIR_NAME] at hd
  unfold restoreDir
  have hbc : st.2.1.dirs.contains d = true := List.elem_iff.mpr hdm
  rw [if_neg (by simp [hbc, hdm])]
  intro g hg
  refine restoreDir_listing_progress att d hne hsucc (listFilesIn st.2.1 d) st
    (listFilesIn_nodup d hnodup) hnodup (fun f hf => (mem_listFilesIn hf).2) ?_ g hg
  intro g' hg' hgd'
  unfold listFilesIn
  rw [mem_sortByKey, List.mem_filter]
  exact ⟨hg', beq_iff_eq.mpr hgd'⟩

theorem restoreDir_stable (att : FPath → List Bool)
    (st : Bool × FS × List HRow) (d : List String)
    (hnestd : d ∈ st.2.1.dirs → d.count DEFER_DIR_NAME ≤ 1)
    (hd : (d.getLast?).getD "" = DEFER_DIR_NAME)
    {e : List String} (he : (e.getLast?).getD "" = DEFER_DIR_NAME)
    (hP : NoDeferFilesIn st.2.1 e) :
    NoDeferFilesIn (restoreDir att st d).2.1 e := by
  unfold restoreDir
  by_cases hc : st.2.1.dirs.contains d = false
  · rw [if_pos hc]
    exact hP
  · rw [if_neg hc]
    have hdm : d ∈ st.2.1.dirs := by
      cases hb : st.2.1.dirs.contains d with
      | false => exact absurd hb hc
      | true => exact List.elem_iff.mp hb
    exact foldl_pres (restoreFile att d) (listFilesIn st.2.1 d)
      (fun s => NoDeferFilesIn s.2.1 e)
      (fun st' f _ hPf => restoreFile_stable att d st' f (hnestd hdm) hd he hPf) st hP

theorem targets_end_defer (recursive : Bool) (fs : FS) (base : List String)
    (dd : List String)
    (hdd : dd ∈ (if recursive then rglobDirs fs base DEFER_DIR_NAME
      else [base ++ [DEFER_DIR_NAME]])) :
    (dd.getLast?).getD "" = DEFER_DIR_NAME := by
  cases recursive with
  | true =>
    rw [if_pos rfl] at hdd
    unfold rglobDirs at hdd
    rw [List.mem_filter, Bool.and_eq_true] at hdd
    exact beq_iff_eq.mp hdd.2.2
  | false =>
    rw [if_neg (by simp), List.mem_singleton] at hdd
    subst hdd
    rw [List.getLast?_concat]
    rfl

theorem restoreRoot_stable (recursive : Bool) (att : FPath → List Bool)
    (st : Bool × FS × List HRow) (r : Root)
    (hnest : ∀ dd ∈ st.2.1.dirs, dd.count DEFER_DIR_NAME ≤ 1)
    {e : List String} (he : (e.getLast?).getD "" = DEFER_DIR_NAME)
    (hP : NoDeferFilesIn st.2.1 e) :
    NoDeferFilesIn (restoreRoot recursive att st r).2.1 e := by
  unfold restoreRoot
  by_cases h1 : (!r.enabled || r.done) = true
  · rw [if_pos h1]
    exact hP
  · rw [if_neg h1]
    by_cases h2 : st.2.1.dirs.contains r.path = false
    · rw [if_pos h2]
      exact hP
    · rw [if_neg h2]
      have hfold := foldl_pres (restoreDir att)
        (if recursive then rglobDirs st.2.1 r.path DEFER_DIR_NAME
          else [r.path ++ [DEFER_DIR_NAME]])
        (fun s => s.2.1.dirs = st.2.1.dirs ∧ NoDeferFilesIn s.2.1 e)
        (fun st' dd hdd hPf => by
          refine ⟨((restoreDir_RPres att st' dd).1).trans hPf.1, ?_⟩
          refine restoreDir_stable att st' dd ?_ (targets_end_defer recursive st.2.1 r.path dd hdd) he hPf.2
          intro hm
          exact hnest dd (hPf.1 ▸ hm)) st ⟨rfl, hP⟩
      exact hfold.2

theorem restoreRoot_processed (recursive : Bool) (att : FPath → List Bool)
    (st : Bool × FS × List HRow) (r : Root) (d0 : List String)
    (hen : r.enabled = true) (hdn : r.done = false)
    (hrp : r.path ∈ st.2.1.dirs)
    (hd0m : d0 ∈ st.2.1.dirs)
    (hd0e : (d0.getLast?).getD "" = DEFER_DIR_NAME)
    (htarr : recursive = true → r.path.isPrefixOf d0 = true ∧ r.path.length < d0.length)
    (htarf : recursive = false → d0 = r.path ++ [DEFER_DIR_NAME])
    (hnodup : st.2.1.files.Nodup)
    (hnest : ∀ dd ∈ st.2.1.dirs, dd.count DEFER_DIR_NAME ≤ 1)
    (hsucc : ∀ f, ((att f).take 10).any id = true) :
    NoDeferFilesIn (restoreRoot recursive att st r).2.1 d0 := by
  unfold restoreRoot
  rw [if_neg (by simp [hen, hdn])]
  rw [if_neg (by simp [List.elem_iff.mpr hrp, hrp])]
  have hd0t : d0 ∈ (if recursive then rglobDirs st.2.1 r.path DEFER_DIR_NAME
      else [r.path ++ [DEFER_DIR_NAME]]) := by
    cases recursive with
    | true =>
      rw [if_pos rfl]
      unfold rglobDirs
      rw [List.mem_filter]
      refine ⟨hd0m, ?_⟩
      obtain ⟨hpre, hlen⟩ := htarr rfl
      rw [Bool.and_eq_true, Bool.and_eq_true]
      exact ⟨⟨hpre, by simpa using hlen⟩, beq_iff_eq.mpr hd0e⟩
    | false =>
      rw [if_neg (by simp), List.mem_singleton]
      exact htarf rfl
  obtain ⟨t1, t2, hts⟩ := List.append_of_mem hd0t
  rw [hts, List.foldl_append, List.foldl_cons]
  have ht2sub : ∀ dd ∈ t2, (dd.getLast?).getD "" = DEFER_DIR_NAME := by
    intro dd hdd
    refine targets_end_defer recursive st.2.1 r.path dd ?_
    rw [hts, List.mem_append, List.mem_cons]
    exact Or.inr (Or.inr hdd)
  set stA := t1.foldl (restoreDir att) st with hstA
  have hpA : RPres st stA := by
    rw [hstA]
    exact RPres_foldl (restoreDir att) t1
      (fun s dd _ => restoreDir_RPres att s dd) st
  have hprog : NoDeferFilesIn (restoreDir att stA d0).2.1 d0 := by
    refine restoreDir_progress att stA d0 hd0e ?_ (hpA.2.1 hnodup) hsucc
    rw [hpA.1]
    exact hd0m
  have hdirsB : (restoreDir att stA d0).2.1.dirs = st.2.1.dirs :=
    ((restoreDir_RPres att stA d0).1).trans hpA.1
  have hfold := foldl_pres (restoreDir att) t2
    (fun s => s.2.1.dirs = st.2.1.dirs ∧ NoDeferFilesIn s.2.1 d0)
    (fun st' dd hdd hPf => by
      refine ⟨((restoreDir_RPres att st' dd).1).trans hPf.1, ?_⟩
      refine restoreDir_stable att st' dd ?_ (ht2sub dd hdd) hd0e hPf.2
      intro hm
      exact hnest dd (hPf.1 ▸ hm)) (restoreDir att stA d0) ⟨hdirsB, hprog⟩
  exact hfold.2

theorem processedDir_dirs_eq {cfg : Cfg} {fs fs' : FS} {d : List String}
    (h : fs'.dirs = fs.dirs) : processedDir cfg fs' d ↔ processedDir cfg fs d := by
  unfold processedDir
  rw [h]

theorem restore_clears (cfg : Cfg) (att : FPath → List Bool) (fs : FS)
    (hist : List HRow)
    (hnodup : fs.files.Nodup)
    (hsucc : ∀ f, ((att f).take 10).any id = true)
    (hnest : NoNest fs)
    (d0 : List String) (hproc : processedDir cfg fs d0) :
    NoDeferFilesIn (restore_deferred_if_any cfg att fs hist).2.1 d0 := by
  obtain ⟨hd0m, hd0e, r, hrm, hen, hdn, hrpm, htarr, htarf⟩ := hproc
  obtain ⟨l1, l2, hsplit⟩ := List.append_of_mem hrm
  unfold restore_deferred_if_any
  rw [hsplit, List.foldl_append, List.foldl_cons]
  set st0 : Bool × FS × List HRow := (false, fs, hist) with hst0
  set st1 := l1.foldl (restoreRoot cfg.recursive att) st0 with hst1
  have hp1 : RPres st0 st1 := by
    rw [hst1]
    exact RPres_foldl (restoreRoot cfg.recursive att) l1
      (fun s rr _ => restoreRoot_RPres cfg.recursive att s rr) st0
  have hdirs1 : st1.2.1.dirs = fs.dirs := hp1.1
  have hstep : NoDeferFilesIn (restoreRoot cfg.recursive att st1 r).2.1 d0 := by
    refine restoreRoot_processed cfg.recursive att st1 r d0 hen hdn ?_ ?_ hd0e
      htarr htarf (hp1.2.1 hnodup) ?_ hsucc
    · rw [hdirs1]; exact hrpm
    · rw [hdirs1]; exact hd0m
    · intro dd hm
      exact hnest dd (hdirs1 ▸ hm)
  have hdirs2 : (restoreRoot cfg.recursive att st1 r).2.1.dirs = fs.dirs :=
    ((restoreRoot_RPres cfg.recursive att st1 r).1).trans hdirs1
  have hfold := foldl_pres (restoreRoot cfg.recursive att) l2
    (fun s => s.2.1.dirs = fs.dirs ∧ NoDeferFilesIn s.2.1 d0)
    (fun st' rr hrr hPf => by
      refine ⟨((restoreRoot_RPres cfg.recursive att st' rr).1).trans hPf.1, ?_⟩
      refine restoreRoot_stable cfg.recursive att st' rr ?_ hd0e hPf.2
      intro dd hm
      exact hnest dd (hPf.1 ▸ hm)) (restoreRoot cfg.recursive att st1 r) ⟨hdirs2, hstep⟩
  exact hfold.2

theorem restore_noop (cfg : Cfg) (att : FPath → List Bool) (fs : FS)
    (hist : List HRow)
    (hclean : ∀ f ∈ fs.files, ¬ processedDir cfg fs f.dir) :
    restore_deferred_if_any cfg att fs hist = (false, fs, hist) := by
  unfold restore_deferred_if_any
  refine foldl_pres (restoreRoot cfg.recursive att) cfg.inputs
    (fun s => s = (false, fs, hist)) ?_ (false, fs, hist) rfl
  intro st r hrm hst
  subst hst
  unfold restoreRoot
  by_cases h1 : (!r.enabled || r.done) = true
  · rw [if_pos h1]
  · rw [if_neg h1]
    have h1f : (!r.enabled || r.done) = false := by
      cases hb : (!r.enabled || r.done) with
      | false => rfl
      | true => exact absurd hb h1
    rw [Bool.or_eq_false_iff] at h1f
    have hen : r.enabled = true := by
      cases hb : r.enabled with
      | false => rw [hb] at h1f; simp at h1f
      | true => rfl
    have hdone : r.done = false := h1f.2
    by_cases h2 : fs.dirs.contains r.path = false
    · rw [if_pos h2]
    · rw [if_neg h2]
      have hrpm : r.path ∈ fs.dirs := by
        cases hb : fs.dirs.contains r.path with
        | false => exact absurd hb h2
        | true => exact List.elem_iff.mp hb
      refine foldl_pres (restoreDir att) _ (fun s => s = (false, fs, hist)) ?_ _ rfl
      intro st' dd hdd hst'
      subst hst'
      unfold restoreDir
      by_cases h3 : fs.dirs.contains dd = false
      · rw [if_pos h3]
      · rw [if_neg h3]
        have hddm : dd ∈ fs.dirs := by
          cases hb : fs.dirs.contains dd with
          | false => exact absurd hb h3
          | true => exact List.elem_iff.mp hb
        show (listFilesIn fs dd).foldl (restoreFile att dd) (false, fs, hist)
          = (false, fs, hist)
        cases hl : listFilesIn fs dd with
        | nil => rfl
        | cons f rest =>
          exfalso
          have hfm := mem_listFilesIn (hl ▸ List.mem_cons_self f rest)
          apply hclean f hfm.2
          rw [hfm.1]
          refine ⟨hddm, targets_end_defer cfg.recursive fs r.path dd hdd, r, hrm,
            hen, hdone, hrpm, ?_, ?_⟩
          · intro hrec
            rw [if_pos hrec] at hdd
            unfold rglobDirs at hdd
            rw [List.mem_filter, Bool.and_eq_true, Bool.and_eq_true] at hdd
            exact ⟨hdd.2.1.1, by simpa using hdd.2.1.2⟩
          · intro hrec
            rw [hrec] at hdd
            rw [if_neg (by simp), List.mem_singleton] at hdd
            exact hdd

theorem restoreDir_Q (att : FPath → List Bool) (fs : FS) (hist : List HRow)
    (hsucc : ∀ f, ((att f).take 10).any id = true)
    (st : Bool × FS × List HRow) (d : List String)
    (hq : st.1 = true ∨ st = (false, fs, hist)) :
    (restoreDir att st d).1 = true ∨ restoreDir att st d = (false, fs, hist) := by
  rcases hq with h | h
  · exact Or.inl ((restoreDir_RPres att st d).2.2 h)
  · subst h
    unfold restoreDir
    by_cases hc : fs.dirs.contains d = false
    · rw [if_pos hc]
      exact Or.inr rfl
    · rw [if_neg hc]
      show ((listFilesIn fs d).foldl (restoreFile att d) (false, fs, hist)).1 = true ∨
        (listFilesIn fs d).foldl (restoreFile att d) (false, fs, hist) = (false, fs, hist)
      cases hl : listFilesIn fs d with
      | nil =>
        right
        rfl
      | cons f rest =>
        left
        rw [List.foldl_cons]
        have hf : f ∈ fs.files := (mem_listFilesIn (hl ▸ List.mem_cons_self f rest)).2
        rw [restoreFile_eq_move att d (false, fs, hist) f (List.elem_iff.mpr hf) (hsucc f)]
        exact (RPres_foldl (restoreFile att d) rest
          (fun s a _ => restoreFile_RPres att d s a) _).2.2 rfl

theorem restoreRoot_Q (recursive : Bool) (att : FPath → List Bool) (fs : FS)
    (hist : List HRow)
    (hsucc : ∀ f, ((att f).take 10).any id = true)
    (st : Bool × FS × List HRow) (r : Root)
    (hq : st.1 = true ∨ st = (false, fs, hist)) :
    (restoreRoot recursive att st r).1 = true ∨
      restoreRoot recursive att st r = (false, fs, hist) := by
  rcases hq with h | h
  · exact Or.inl ((restoreRoot_RPres recursive att st r).2.2 h)
  · subst h
    unfold restoreRoot
    by_cases h1 : (!r.enabled || r.done) = true
    · rw [if_pos h1]
      exact Or.inr rfl
    · rw [if_neg h1]
      by_cases h2 : fs.dirs.contains r.path = false
      · rw [if_pos h2]
        exact Or.inr rfl
      · rw [if_neg h2]
        exact foldl_pres (restoreDir att) _
          (fun s => s.1 = true ∨ s = (false, fs, hist))
          (fun st' dd _ hq' => restoreDir_Q att fs hist hsucc st' dd hq')
          (false, fs, hist) (Or.inr rfl)

theorem restore_flag (cfg : Cfg) (att : FPath → List Bool) (fs : FS)
    (hist : List HRow)
    (hsucc : ∀ f, ((att f).take 10).any id = true) :
    (restore_deferred_if_any cfg att fs hist).1 = true ∨
      restore_deferred_if_any cfg att fs hist = (false, fs, hist) := by
  unfold restore_deferred_if_any
  exact foldl_pres (restoreRoot cfg.recursive att) cfg.inputs
    (fun s => s.1 = true ∨ s = (false, fs, hist))
    (fun st r _ hq => restoreRoot_Q cfg.recursive att fs hist hsucc st r hq)
    (false, fs, hist) (Or.inr rfl)

/-- C8 counterexample: with a deferred staging folder nested directly
inside another one, the restorer reports true twice in a row with no
intervening changes — the first pass moves the nested file only one level
up, into the outer staging folder, which the second pass then drains — so
the claimed true-then-false behaviour fails as stated. -/
theorem restore_idempotent_counterexample :
    (restore_deferred_if_any ⟨[⟨["in"], true, false⟩], true⟩ (fun _ => [true])
      ⟨[⟨["in", DEFER_DIR_NAME, DEFER_DIR_NAME], ⟨"f", ".wav"⟩⟩],
       [["in"], ["in", DEFER_DIR_NAME], ["in", DEFER_DIR_NAME, DEFER_DIR_NAME]]⟩ []).1
      = true ∧
    (restore_deferred_if_any ⟨[⟨["in"], true, false⟩], true⟩ (fun _ => [true])
      (restore_deferred_if_any ⟨[⟨["in"], true, false⟩], true⟩ (fun _ => [true])
        ⟨[⟨["in", DEFER_DIR_NAME, DEFER_DIR_NAME], ⟨"f", ".wav"⟩⟩],
         [["in"], ["in", DEFER_DIR_NAME], ["in", DEFER_DIR_NAME, DEFER_DIR_NAME]]⟩ []).2.1
      (restore_deferred_if_any ⟨[⟨["in"], true, false⟩], true⟩ (fun _ => [true])
        ⟨[⟨["in", DEFER_DIR_NAME, DEFER_DIR_NAME], ⟨"f", ".wav"⟩⟩],
         [["in"], ["in", DEFER_DIR_NAME], ["in", DEFER_DIR_NAME, DEFER_DIR_NAME]]⟩ []).2.2).1
      = true := by
  exact ⟨rfl, rfl⟩

/-- C8 (amended): provided no deferred staging folder is nested inside
another and the mover's attempts succeed, restoration is idempotent: the
first call reports true as soon as some deferred file sits in a staging
folder the pass processes, and a second call with no intervening
filesystem or configuration changes is a no-op reporting false, because
the first call emptied every processed staging folder of files. -/
theorem restore_idempotent (cfg : Cfg) (att att2 : FPath → List Bool)
    (fs : FS) (hist hist2 : List HRow)
    (hnodup : fs.files.Nodup)
    (hsucc : ∀ f, ((att f).take 10).any id = true)
    (hnest : NoNest fs) :
    ((∃ d0, processedDir cfg fs d0 ∧ ∃ f0 ∈ fs.files, f0.dir = d0) →
      (restore_deferred_if_any cfg att fs hist).1 = true) ∧
    restore_deferred_if_any cfg att2
        (restore_deferred_if_any cfg att fs hist).2.1 hist2
      = (false, (restore_deferred_if_any cfg att fs hist).2.1, hist2) := by
  constructor
  · rintro ⟨d0, hproc, f0, hf0m, hf0d⟩
    rcases restore_flag cfg att fs hist hsucc with h | h
    · exact h
    · exfalso
      have hcl := restore_clears cfg att fs hist hnodup hsucc hnest d0 hproc
      rw [h] at hcl
      exact hcl f0 hf0m hf0d
  · apply restore_noop
    intro f hfm hpd
    have hdirs : (restore_deferred_if_any cfg att fs hist).2.1.dirs = fs.dirs :=
      (restore_RPres cfg att fs hist).1
    rw [processedDir_dirs_eq hdirs] at hpd
    have hcl := restore_clears cfg att fs hist hnodup hsucc hnest f.dir hpd
    exact hcl f hfm rfl

/-- Witness for C8's amended idempotence at a concrete non-nested layout. -/
theorem restore_idempotent_witness :
    (restore_deferred_if_any ⟨[⟨["in"], true, false⟩], true⟩ (fun _ => [true])
      ⟨[⟨["in", DEFER_DIR_NAME], ⟨"b", ".wav"⟩⟩], [["in"], ["in", DEFER_DIR_NAME]]⟩ []).1
      = true ∧
    restore_deferred_if_any ⟨[⟨["in"], true, false⟩], true⟩ (fun _ => [true])
      (restore_deferred_if_any ⟨[⟨["in"], true, false⟩], true⟩ (fun _ => [true])
        ⟨[⟨["in", DEFER_DIR_NAME], ⟨"b", ".wav"⟩⟩], [["in"], ["in", DEFER_DIR_NAME]]⟩ []).2.1 []
      = (false, (restore_deferred_if_any ⟨[⟨["in"], true, false⟩], true⟩ (fun _ => [true])
        ⟨[⟨["in", DEFER_DIR_NAME], ⟨"b", ".wav"⟩⟩], [["in"], ["in", DEFER_DIR_NAME]]⟩ []).2.1, []) := by
  have h := restore_idempotent ⟨[⟨["in"], true, false⟩], true⟩ (fun _ => [true])
    (fun _ => [true])
    ⟨[⟨["in", DEFER_DIR_NAME], ⟨"b", ".wav"⟩⟩], [["in"], ["in", DEFER_DIR_NAME]]⟩ [] []
    (by simp) (fun f => rfl)
    (by unfold NoNest DEFER_DIR_NAME; decide)
  refine ⟨h.1 ⟨["in", DEFER_DIR_NAME], ?_,
    ⟨["in", DEFER_DIR_NAME], ⟨"b", ".wav"⟩⟩, by simp, rfl⟩, h.2⟩
  refine ⟨by simp, rfl, ⟨["in"], true, false⟩, by simp, rfl, rfl, by simp,
    fun _ => ⟨rfl, by decide⟩, fun hc => absurd hc (by simp)⟩

/-- One audit-table row (`Store.audit`: confirmed operations only). -/
structure AuditRec where
  op : String
  src : FPath
  dst : FPath
  character : Option String
  folder : Option String
deriving DecidableEq

/-- Python's `str.strip()` on the character list. -/
def stripStr (s : String) : String :=
  ⟨((s.data.dropWhile Char.isWhitespace).reverse.dropWhile Char.isWhitespace).reverse⟩

/-- Collapse every whitespace run into a single underscore, the
`re.sub(r"\s+", "_", ...)` of `safe_key`. -/
def collapseWSGo (prev : Bool) : List Char → List Char
  | [] => []
  | c :: t =>
    if c.isWhitespace then
      if prev then collapseWSGo true t else '_' :: collapseWSGo true t
    else c :: collapseWSGo false t

/-- A character replaced by `_` in `safe_key`'s final substitution. -/
def badChar (c : Char) : Bool :=
  c == '\\' || c == '/' || c == ':' || c == '*' || c == '?' || c == '"'
    || c == '<' || c == '>' || c == '|'

/-- `safe_key` of main.py: strip, collapse whitespace runs to underscores,
strip leading and trailing dots and underscores (falling back to
"Unnamed"), then neutralise filesystem-reserved characters. -/
def safe_key (name : String) : String :=
  let s1 := collapseWSGo false (stripStr name).data
  let s2 := ((s1.dropWhile (fun c => c == '.' || c == '_')).reverse.dropWhile
    (fun c => c == '.' || c == '_')).reverse
  let s3 := if s2 = [] then "Unnamed".data else s2
  ⟨s3.map (fun c => if badChar c then '_' else c)⟩

/-- Nonempty prefixes of a directory path. -/
def prefixesOf (d : List String) : List (List String) :=
  (List.range d.length).map (fun k => d.take (k + 1))

/-- `mkdir(parents=True, exist_ok=True)`: create the directory and any
missing ancestors. -/
def mkdirP (fs : FS) (d : List String) : FS :=
  { fs with dirs := fs.dirs ++ (prefixesOf d).filter (fun p => !(fs.dirs.contains p)) }

/-- `mkdir(exist_ok=True)`: create one directory if missing. -/
def mkdirOne (fs : FS) (d : List String) : FS :=
  { fs with dirs := if fs.dirs.contains d then fs.dirs else fs.dirs ++ [d] }

/-- Engine state threaded through the classification and undo/redo flows:
the Working Queue with its cursor, the filesystem, and the two logs. -/
structure Engine where
  files : List FPath
  index : Int
  fs : FS
  hist : List HRow
  audit : List AuditRec
deriving DecidableEq

/-- Outcome reported by an engine operation. -/
inductive OpResult
  | ok
  | rejectedInput
  | noCurrent
  | moveFailed
  | nothingToUndo
  | nothingToRedo
  | missingCurrent
deriving DecidableEq

/-- Queue rebuild: run `load_files` and reset the cursor. -/
def applyLoad (cfg : Cfg) (att : Nat → FPath → List Bool) (e : Engine) : Engine :=
  let out := load_files cfg att e.fs e.hist
  { e with files := out.files
           index := if out.files.isEmpty then -1 else 0
           fs := out.fs
           hist := out.hist }

/-- `_goto_file`: place the cursor on the given path when present. -/
def goto_file (e : Engine) (target : FPath) : Engine :=
  match e.files.indexOf? target with
  | some i => { e with index := (i : Int) }
  | none => e

/-- Common tail of the classification flows: when the queue has emptied,
restore deferred items and, if anything moved, rebuild the queue. -/
def confirmTail (cfg : Cfg) (attr : Nat → FPath → List Bool) (e : Engine) : Engine :=
  if e.files.isEmpty then
    let rr := restore_deferred_if_any cfg (attr 0) e.fs e.hist
    if rr.1 then applyLoad cfg (fun k => attr (k + 1)) { e with fs := rr.2.1, hist := rr.2.2 }
    else { e with fs := rr.2.1, hist := rr.2.2 }
  else e

/-- `confirm_and_move`: validate the typed name and the output directory,
move the current file to the collision-free destination under the
per-character folder, then append one history record and one audit record
and advance the queue. -/
def confirm_and_move (cfg : Cfg) (attm : List Bool) (attr : Nat → FPath → List Bool)
    (op_id : String) (name : String) (output_dir : Option (List String))
    (e : Engine) : Engine × OpResult :=
  let name' := stripStr name
  if name' = "" then (e, .rejectedInput)
  else
    match output_dir with
    | none => (e, .rejectedInput)
    | some out =>
      if _h : 0 ≤ e.index ∧ e.index < e.files.length then
        let src := e.files.getD e.index.toNat emptyPath
        let safe := safe_key name'
        let dest_dir := out ++ [safe]
        let fs1 := mkdirP e.fs dest_dir
        let dest := finalize_dest fs1 ⟨dest_dir, src.name⟩
        let mv := try_move_with_retry attm fs1 src dest
        if mv.1 = false then ({ e with fs := fs1 }, .moveFailed)
        else
          let hist1 := logRow e.hist "move" ⟨some op_id, some "move", some src, some dest⟩
          let audit1 := e.audit ++ [⟨"move", src, dest, some name', some safe⟩]
          let files1 := e.files.eraseIdx e.index.toNat
          let index1 : Int := if (files1.length : Int) ≤ e.index
            then (files1.length : Int) - 1 else e.index
          (confirmTail cfg attr ⟨files1, index1, mv.2, hist1, audit1⟩, .ok)
      else (e, .noCurrent)

/-- `exclude_current`: move the current file into the local exclusion
staging folder, appending one history and one audit record. -/
def exclude_current (cfg : Cfg) (attm : List Bool) (attr : Nat → FPath → List Bool)
    (op_id : String) (e : Engine) : Engine × OpResult :=
  if _h : 0 ≤ e.index ∧ e.index < e.files.length then
    let src := e.files.getD e.index.toNat emptyPath
    let excl_dir := src.dir ++ [EXCLUDE_DIR_NAME]
    let fs1 := mkdirOne e.fs excl_dir
    let dest := finalize_dest fs1 ⟨excl_dir, src.name⟩
    let mv := try_move_with_retry attm fs1 src dest
    if mv.1 = false then ({ e with fs := fs1 }, .moveFailed)
    else
      let hist1 := logRow e.hist "exclude" ⟨some op_id, some "exclude", some src, some dest⟩
      let audit1 := e.audit ++ [⟨"exclude", src, dest, none, none⟩]
      let files1 := e.files.eraseIdx e.index.toNat
      let index1 : Int := if (files1.length : Int) ≤ e.index
        then (files1.length : Int) - 1 else e.index
      (confirmTail cfg attr ⟨files1, index1, mv.2, hist1, audit1⟩, .ok)
  else (e, .noCurrent)

/-- `defer_current`: move the current file into the local deferral staging
folder, appending one history and one audit record. -/
def defer_current (cfg : Cfg) (attm : List Bool) (attr : Nat → FPath → List Bool)
    (op_id : String) (e : Engine) : Engine × OpResult :=
  if _h : 0 ≤ e.index ∧ e.index < e.files.length then
    let src := e.files.getD e.index.toNat emptyPath
    let dfr_dir := src.dir ++ [DEFER_DIR_NAME]
    let fs1 := mkdirOne e.fs dfr_dir
    let dest := finalize_dest fs1 ⟨dfr_dir, src.name⟩
    let mv := try_move_with_retry attm fs1 src dest
    if mv.1 = false then ({ e with fs := fs1 }, .moveFailed)
    else
      let hist1 := logRow e.hist "defer" ⟨some op_id, some "defer", some src, some dest⟩
      let audit1 := e.audit ++ [⟨"defer", src, dest, none, none⟩]
      let files1 := e.files.eraseIdx e.index.toNat
      let index1 : Int := if (files1.length : Int) ≤ e.index
        then (files1.length : Int) - 1 else e.index
      (confirmTail cfg attr ⟨files1, index1, mv.2, hist1, audit1⟩, .ok)
  else (e, .noCurrent)

/-- The redo candidate selection of `redo_last_persistent`: the undone
entry with the greatest last_event_id, scanned in insertion order. -/
def redoCand (ops : OpMap) : Option (String × OpSt) :=
  ops.foldl (fun cand kv =>
    if kv.2.state = OpState.undone then
      match cand with
      | none => some kv
      | some c => if c.2.last_event_id < kv.2.last_event_id then some kv else cand
    else cand) none

/-- `undo_last_persistent`: rebuild the operation state, pick the most
recently applied operation, verify the file is still at its current path,
move it back to a collision-free name in its origin directory, append one
`undo` record and rebuild the queue; a failed move appends only a
diagnostic `undo_error` record. -/
def undo_last_persistent (cfg : Cfg) (attm : List Bool)
    (attr : Nat → FPath → List Bool) (e : Engine) : Engine × OpResult :=
  let ops := build_op_state e.hist
  match undoCand ops with
  | none => (e, .nothingToUndo)
  | some cand =>
    let current := cand.2.current_path
    let origin_src := cand.2.origin_src
    if entryExists e.fs current = false then (e, .missingCurrent)
    else
      let target := finalize_dest e.fs origin_src
      let mv := try_move_with_retry attm e.fs current target
      if mv.1 = false then
        ({ e with hist := logRow e.hist "undo_error" ⟨some cand.1, none, none, none⟩ },
          .moveFailed)
      else
        let hist1 := logRow e.hist "undo" ⟨some cand.1, some cand.2.typ, some current, some target⟩
        (goto_file (applyLoad cfg attr { e with fs := mv.2, hist := hist1 }) target, .ok)

/-- `redo_last_persistent`: symmetric to undo — pick the most recently
undone operation, move its file to a collision-free name near the original
confirmed destination, append one `redo` record and rebuild the queue; a
failed move appends only a diagnostic `redo_error` record. -/
def redo_last_persistent (cfg : Cfg) (attm : List Bool)
    (attr : Nat → FPath → List Bool) (e : Engine) : Engine × OpResult :=
  let ops := build_op_state e.hist
  match redoCand ops with
  | none => (e, .nothingToRedo)
  | some cand =>
    let current := cand.2.current_path
    let origin_dst := cand.2.origin_dst
    if entryExists e.fs current = false then (e, .missingCurrent)
    else
      let target := finalize_dest e.fs origin_dst
      let mv := try_move_with_retry attm e.fs current target
      if mv.1 = false then
        ({ e with hist := logRow e.hist "redo_error" ⟨some cand.1, none, none, none⟩ },
          .moveFailed)
      else
        let hist1 := logRow e.hist "redo" ⟨some cand.1, some cand.2.typ, some current, some target⟩
        (goto_file (applyLoad cfg attr { e with fs := mv.2, hist := hist1 }) target, .ok)

theorem restoreFile_countP (p : HRow → Bool)
    (hp : ∀ n, p ⟨n, "restore_deferred_error", ⟨none, none, none, none⟩⟩ = false)
    (att : FPath → List Bool) (d : List String)
    (st : Bool × FS × List HRow) (f : FPath) :
    (restoreFile att d st f).2.2.countP p = st.2.2.countP p := by
  obtain ⟨b, fs, hist⟩ := st
  unfold restoreFile
  simp only
  by_cases hok : (try_move_with_retry (att f) fs f (restore_dest fs d.dropLast f.name)).1 = true
  · rw [if_pos hok]
  · rw [if_neg hok]
    unfold logRow
    simp only
    rw [List.countP_append, List.countP_cons, List.countP_nil, hp (nextIdOf hist)]
    simp

theorem restoreDir_countP (p : HRow → Bool)
    (hp : ∀ n, p ⟨n, "restore_deferred_error", ⟨none, none, none, none⟩⟩ = false)
    (att : FPath → List Bool) (st : Bool × FS × List HRow) (d : List String) :
    (restoreDir att st d).2.2.countP p = st.2.2.countP p := by
  unfold restoreDir
  by_cases hc : st.2.1.dirs.contains d = false
  · rw [if_pos hc]
  · rw [if_neg hc]
    refine foldl_pres (restoreFile att d) _
      (fun s => s.2.2.countP p = st.2.2.countP p) ?_ st rfl
    intro st' f _ h
    rw [restoreFile_countP p hp att d st' f, h]

theorem restoreRoot_countP (p : HRow → Bool)
    (hp : ∀ n, p ⟨n, "restore_deferred_error", ⟨none, none, none, none⟩⟩ = false)
    (recursive : Bool) (att : FPath → List Bool)
    (st : Bool × FS × List HRow) (r : Root) :
    (restoreRoot recursive att st r).2.2.countP p = st.2.2.countP p := by
  unfold restoreRoot
  by_cases h1 : (!r.enabled || r.done) = true
  · rw [if_pos h1]
  · rw [if_neg h1]
    by_cases h2 : st.2.1.dirs.contains r.path = false
    · rw [if_pos h2]
    · rw [if_neg h2]
      refine foldl_pres (restoreDir att) _
        (fun s => s.2.2.countP p = st.2.2.countP p) ?_ st rfl
      intro st' d _ h
      rw [restoreDir_countP p hp att st' d, h]

theorem restore_countP (p : HRow → Bool)
    (hp : ∀ n, p ⟨n, "restore_deferred_error", ⟨none, none, none, none⟩⟩ = false)
    (cfg : Cfg) (att : FPath → List Bool) (fs : FS) (hist : List HRow) :
    ((restore_deferred_if_any cfg att fs hist).2.2).countP p = hist.countP p := by
  unfold restore_deferred_if_any
  refine foldl_pres (restoreRoot cfg.recursive att) cfg.inputs
    (fun s => s.2.2.countP p = hist.countP p) ?_ (false, fs, hist) rfl
  intro st r _ h
  rw [restoreRoot_countP p hp cfg.recursive att st r, h]

theorem load_files_go_countP (p : HRow → Bool)
    (hp : ∀ n, p ⟨n, "restore_deferred_error", ⟨none, none, none, none⟩⟩ = false)
    (cfg : Cfg) (att : Nat → FPath → List Bool) :
    ∀ (fuel k : Nat) (fs : FS) (hist : List HRow),
      ((load_files_go cfg att fuel k fs hist).hist).countP p = hist.countP p := by
  intro fuel
  induction fuel with
  | zero => intro k fs hist; rfl
  | succ fuel ih =>
    intro k fs hist
    unfold load_files_go
    by_cases hq : (scan_files cfg fs).isEmpty = false
    · rw [if_pos hq]
    · rw [if_neg hq]
      by_cases hr : (restore_deferred_if_any cfg (att k) fs hist).1 = true
      · rw [if_pos hr]
        show ((load_files_go cfg att fuel (k + 1) _ _).hist).countP p = _
        rw [ih]
        exact restore_countP p hp cfg (att k) fs hist
      · rw [if_neg hr]
        exact restore_countP p hp cfg (att k) fs hist

theorem applyLoad_countP (p : HRow → Bool)
    (hp : ∀ n, p ⟨n, "restore_deferred_error", ⟨none, none, none, none⟩⟩ = false)
    (cfg : Cfg) (att : Nat → FPath → List Bool) (e : Engine) :
    (applyLoad cfg att e).hist.countP p = e.hist.countP p := by
  unfold applyLoad load_files
  exact load_files_go_countP p hp cfg att (fsMeasure e.fs + 1) 0 e.fs e.hist

theorem applyLoad_audit (cfg : Cfg) (att : Nat → FPath → List Bool) (e : Engine) :
    (applyLoad cfg att e).audit = e.audit := rfl

theorem goto_file_hist (e : Engine) (t : FPath) : (goto_file e t).hist = e.hist := by
  unfold goto_file
  cases e.files.indexOf? t with
  | none => rfl
  | some i => rfl

theorem goto_file_audit (e : Engine) (t : FPath) : (goto_file e t).audit = e.audit := by
  unfold goto_file
  cases e.files.indexOf? t with
  | none => rfl
  | some i => rfl

theorem confirmTail_audit (cfg : Cfg) (attr : Nat → FPath → List Bool) (e : Engine) :
    (confirmTail cfg attr e).audit = e.audit := by
  unfold confirmTail
  by_cases hq : e.files.isEmpty = true
  · rw [if_pos hq]
    by_cases hr : (restore_deferred_if_any cfg (attr 0) e.fs e.hist).1 = true
    · rw [if_pos hr]
      rfl
    · rw [if_neg hr]
  · rw [if_neg hq]

/-- A history record that carries no usable op_id, or whose action is none
of the five recognised ones, leaves the replayed state untouched. -/
theorem build_op_state_append_irrelevant (rows : List HRow) (r : HRow)
    (h : r.payload.getOpId = none ∨
      (r.action ≠ "move" ∧ r.action ≠ "exclude" ∧ r.action ≠ "defer" ∧
       r.action ≠ "undo" ∧ r.action ≠ "redo")) :
    build_op_state (rows ++ [r]) = build_op_state rows := by
  unfold build_op_state
  rw [List.foldl_append, List.foldl_cons, List.foldl_nil]
  unfold buildStep
  rcases h with h | h
  · simp only [h]
  · cases hid : r.payload.getOpId with
    | none => simp only [hid]
    | some oid =>
      simp only [hid]
      rw [if_neg (by simp [h.1, h.2.1, h.2.2.1]),
        if_neg (by simp [h.2.2.2.1]), if_neg (by simp [h.2.2.2.2])]

theorem countP_logRow (hist : List HRow) (a : String) (pl : Payload)
    (p : HRow → Bool) :
    (logRow hist a pl).countP p
      = hist.countP p + (if p ⟨nextIdOf hist, a, pl⟩ then 1 else 0) := by
  unfold logRow
  rw [List.countP_append, List.countP_cons, List.countP_nil, Nat.zero_add]

/-- C3 (amended): undo() and redo() are all-or-nothing with respect to the
filesystem and the operation log: on success exactly one `undo` (resp.
`redo`) record is appended and no diagnostic error record; when the move
fails (the mover's retry bound exhausts), no `undo`/`redo` record is
appended — instead exactly one diagnostic `undo_error`/`redo_error` record
is logged, which leaves the reconstructed operation state unchanged, and
the filesystem is left in its pre-attempt state; when there is nothing to
undo/redo or the file is missing from its recorded current path, the
engine state is entirely unchanged. -/
theorem undo_redo_all_or_nothing (cfg : Cfg) (attm : List Bool)
    (attr : Nat → FPath → List Bool) (e : Engine) :
    ((undo_last_persistent cfg attm attr e).2 = .ok →
      (undo_last_persistent cfg attm attr e).1.hist.countP (fun h => h.action == "undo")
        = e.hist.countP (fun h => h.action == "undo") + 1 ∧
      (undo_last_persistent cfg attm attr e).1.hist.countP (fun h => h.action == "undo_error")
        = e.hist.countP (fun h => h.action == "undo_error")) ∧
    ((undo_last_persistent cfg attm attr e).2 = .moveFailed →
      (undo_last_persistent cfg attm attr e).1.fs = e.fs ∧
      (undo_last_persistent cfg attm attr e).1.hist.countP (fun h => h.action == "undo")
        = e.hist.countP (fun h => h.action == "undo") ∧
      (undo_last_persistent cfg attm attr e).1.hist.countP (fun h => h.action == "undo_error")
        = e.hist.countP (fun h => h.action == "undo_error") + 1 ∧
      build_op_state (undo_last_persistent cfg attm attr e).1.hist
        = build_op_state e.hist) ∧
    ((undo_last_persistent cfg attm attr e).2 = .nothingToUndo ∨
     (undo_last_persistent cfg attm attr e).2 = .missingCurrent →
      (undo_last_persistent cfg attm attr e).1 = e) ∧
    ((redo_last_persistent cfg attm attr e).2 = .ok →
      (redo_last_persistent cfg attm attr e).1.hist.countP (fun h => h.action == "redo")
        = e.hist.countP (fun h => h.action == "redo") + 1 ∧
      (redo_last_persistent cfg attm attr e).1.hist.countP (fun h => h.action == "redo_error")
        = e.hist.countP (fun h => h.action == "redo_error")) ∧
    ((redo_last_persistent cfg attm attr e).2 = .moveFailed →
      (redo_last_persistent cfg attm attr e).1.fs = e.fs ∧
      (redo_last_persistent cfg attm attr e).1.hist.countP (fun h => h.action == "redo")
        = e.hist.countP (fun h => h.action == "redo") ∧
      (redo_last_persistent cfg attm attr e).1.hist.countP (fun h => h.action == "redo_error")
        = e.hist.countP (fun h => h.action == "redo_error") + 1 ∧
      build_op_state (redo_last_persistent cfg attm attr e).1.hist
        = build_op_state e.hist) ∧
    ((redo_last_persistent cfg attm attr e).2 = .nothingToRedo ∨
     (redo_last_persistent cfg attm attr e).2 = .missingCurrent →
      (redo_last_persistent cfg attm attr e).1 = e) := by
  have hpu : ∀ n, (fun h : HRow => h.action == "undo")
      ⟨n, "restore_deferred_error", ⟨none, none, none, none⟩⟩ = false := fun n => rfl
  have hpue : ∀ n, (fun h : HRow => h.action == "undo_error")
      ⟨n, "restore_deferred_error", ⟨none, none, none, none⟩⟩ = false := fun n => rfl
  have hpr : ∀ n, (fun h : HRow => h.action == "redo")
      ⟨n, "restore_deferred_error", ⟨none, none, none, none⟩⟩ = false := fun n => rfl
  have hpre : ∀ n, (fun h : HRow => h.action == "redo_error")
      ⟨n, "restore_deferred_error", ⟨none, none, none, none⟩⟩ = false := fun n => rfl
  refine ⟨?_, ?_, ?_, ?_, ?_, ?_⟩
  · cases hc : undoCand (build_op_state e.hist) with
    | none =>
      simp only [undo_last_persistent, hc]
      intro h0
      simp at h0
    | some cand =>
      simp only [undo_last_persistent, hc]
      by_cases hex : entryExists e.fs cand.2.current_path = false
      · rw [if_pos hex]
        intro h0
        simp at h0
      · rw [if_neg hex]
        by_cases hmv : (try_move_with_retry attm e.fs cand.2.current_path
            (finalize_dest e.fs cand.2.origin_src)).1 = false
        · rw [if_pos hmv]
          intro h0
          simp at h0
        · rw [if_neg hmv]
          intro _
          constructor
          · rw [goto_file_hist, applyLoad_countP _ hpu, countP_logRow]
            simp
          · rw [goto_file_hist, applyLoad_countP _ hpue, countP_logRow]
            simp
  · cases hc : undoCand (build_op_state e.hist) with
    | none =>
      simp only [undo_last_persistent, hc]
      intro h0
      simp at h0
    | some cand =>
      simp only [undo_last_persistent, hc]
      by_cases hex : entryExists e.fs cand.2.current_path = false
      · rw [if_pos hex]
        intro h0
        simp at h0
      · rw [if_neg hex]
        by_cases hmv : (try_move_with_retry attm e.fs cand.2.current_path
            (finalize_dest e.fs cand.2.origin_src)).1 = false
        · rw [if_pos hmv]
          intro _
          refine ⟨rfl, ?_, ?_, ?_⟩
          · rw [countP_logRow]
            simp
          · rw [countP_logRow]
            simp
          · show build_op_state (logRow e.hist "undo_error" ⟨some cand.1, none, none, none⟩)
              = build_op_state e.hist
            unfold logRow
            exact build_op_state_append_irrelevant e.hist _
              (Or.inr ⟨by simp, by simp, by simp, by simp, by simp⟩)
        · rw [if_neg hmv]
          intro h0
          simp at h0
  · cases hc : undoCand (build_op_state e.hist) with
    | none =>
      simp only [undo_last_persistent, hc]
      intro _
      trivial
    | some cand =>
      simp only [undo_last_persistent, hc]
      by_cases hex : entryExists e.fs cand.2.current_path = false
      · rw [if_pos hex]
        intro _
        rfl
      · rw [if_neg hex]
        by_cases hmv : (try_move_with_retry attm e.fs cand.2.current_path
            (finalize_dest e.fs cand.2.origin_src)).1 = false
        · rw [if_pos hmv]
          intro h0
          rcases h0 with h0 | h0 <;> simp at h0
        · rw [if_neg hmv]
          intro h0
          rcases h0 with h0 | h0 <;> simp at h0
  · cases hc : redoCand (build_op_state e.hist) with
    | none =>
      simp only [redo_last_persistent, hc]
      intro h0
      simp at h0
    | some cand =>
      simp only [redo_last_persistent, hc]
      by_cases hex : entryExists e.fs cand.2.current_path = false
      · rw [if_pos hex]
        intro h0
        simp at h0
      · rw [if_neg hex]
        by_cases hmv : (try_move_with_retry attm e.fs cand.2.current_path
            (finalize_dest e.fs cand.2.origin_dst)).1 = false
        · rw [if_pos hmv]
          intro h0
          simp at h0
        · rw [if_neg hmv]
          intro _
          constructor
          · rw [goto_file_hist, applyLoad_countP _ hpr, countP_logRow]
            simp
          · rw [goto_file_hist, applyLoad_countP _ hpre, countP_logRow]
            simp
  · cases hc : redoCand (build_op_state e.hist) with
    | none =>
      simp only [redo_last_persistent, hc]
      intro h0
      simp at h0
    | some cand =>
      simp only [redo_last_persistent, hc]
      by_cases hex : entryExists e.fs cand.2.current_path = false
      · rw [if_pos hex]
        intro h0
        simp at h0
      · rw [if_neg hex]
        by_cases hmv : (try_move_with_retry attm e.fs cand.2.current_path
            (finalize_dest e.fs cand.2.origin_dst)).1 = false
        · rw [if_pos hmv]
          intro _
          refine ⟨rfl, ?_, ?_, ?_⟩
          · rw [countP_logRow]
            simp
          · rw [countP_logRow]
            simp
          · show build_op_state (logRow e.hist "redo_error" ⟨some cand.1, none, none, none⟩)
              = build_op_state e.hist
            unfold logRow
            exact build_op_state_append_irrelevant e.hist _
              (Or.inr ⟨by simp, by simp, by simp, by simp, by simp⟩)
        · rw [if_neg hmv]
          intro h0
          simp at h0
  · cases hc : redoCand (build_op_state e.hist) with
    | none =>
      simp only [redo_last_persistent, hc]
      intro _
      trivial
    | some cand =>
      simp only [redo_last_persistent, hc]
      by_cases hex : entryExists e.fs cand.2.current_path = false
      · rw [if_pos hex]
        intro _
        rfl
      · rw [if_neg hex]
        by_cases hmv : (try_move_with_retry attm e.fs cand.2.current_path
            (finalize_dest e.fs cand.2.origin_dst)).1 = false
        · rw [if_pos hmv]
          intro h0
          rcases h0 with h0 | h0 <;> simp at h0
        · rw [if_neg hmv]
          intro h0
          rcases h0 with h0 | h0 <;> simp at h0

/-- C3 counterexample: a move failure during undo (mover retries
exhausted) appends a record to the history log — the diagnostic
`undo_error` event — so "the move fails and nothing is appended to the
log" does not hold as stated. -/
theorem undo_allornothing_counterexample :
    (undo_last_persistent ⟨[], true⟩ [] (fun _ _ => [true])
      ⟨[], -1, ⟨[⟨["out"], ⟨"a", ".wav"⟩⟩], [["in"], ["out"]]⟩,
        [⟨1, "move", ⟨some "A", some "move", some ⟨["in"], ⟨"a", ".wav"⟩⟩,
          some ⟨["out"], ⟨"a", ".wav"⟩⟩⟩⟩], []⟩).2 = OpResult.moveFailed ∧
    (undo_last_persistent ⟨[], true⟩ [] (fun _ _ => [true])
      ⟨[], -1, ⟨[⟨["out"], ⟨"a", ".wav"⟩⟩], [["in"], ["out"]]⟩,
        [⟨1, "move", ⟨some "A", some "move", some ⟨["in"], ⟨"a", ".wav"⟩⟩,
          some ⟨["out"], ⟨"a", ".wav"⟩⟩⟩⟩], []⟩).1.hist.length = 2 := by
  exact ⟨rfl, rfl⟩

/-- Witness for C3's amended all-or-nothing behaviour: a successful undo
appends exactly one undo record and no diagnostic record. -/
theorem undo_redo_all_or_nothing_witness :
    (undo_last_persistent ⟨[], true⟩ [true] (fun _ _ => [true])
      ⟨[], -1, ⟨[⟨["out"], ⟨"a", ".wav"⟩⟩], [["in"], ["out"]]⟩,
        [⟨1, "move", ⟨some "A", some "move", some ⟨["in"], ⟨"a", ".wav"⟩⟩,
          some ⟨["out"], ⟨"a", ".wav"⟩⟩⟩⟩], []⟩).1.hist.countP
        (fun h => h.action == "undo")
      = ([⟨1, "move", ⟨some "A", some "move", some ⟨["in"], ⟨"a", ".wav"⟩⟩,
          some ⟨["out"], ⟨"a", ".wav"⟩⟩⟩⟩] : List HRow).countP
        (fun h => h.action == "undo") + 1 ∧
    (undo_last_persistent ⟨[], true⟩ [true] (fun _ _ => [true])
      ⟨[], -1, ⟨[⟨["out"], ⟨"a", ".wav"⟩⟩], [["in"], ["out"]]⟩,
        [⟨1, "move", ⟨some "A", some "move", some ⟨["in"], ⟨"a", ".wav"⟩⟩,
          some ⟨["out"], ⟨"a", ".wav"⟩⟩⟩⟩], []⟩).1.hist.countP
        (fun h => h.action == "undo_error")
      = ([⟨1, "move", ⟨some "A", some "move", some ⟨["in"], ⟨"a", ".wav"⟩⟩,
          some ⟨["out"], ⟨"a", ".wav"⟩⟩⟩⟩] : List HRow).countP
        (fun h => h.action == "undo_error") := by
  exact (undo_redo_all_or_nothing ⟨[], true⟩ [true] (fun _ _ => [true])
    ⟨[], -1, ⟨[⟨["out"], ⟨"a", ".wav"⟩⟩], [["in"], ["out"]]⟩,
      [⟨1, "move", ⟨some "A", some "move", some ⟨["in"], ⟨"a", ".wav"⟩⟩,
        some ⟨["out"], ⟨"a", ".wav"⟩⟩⟩⟩], []⟩).1 rfl

/-- C7: the audit log records only confirmed classification outcomes: a
successful confirmMove/exclude/defer appends exactly one audit record
(carrying the corresponding op), every rejected or failed invocation
appends none, and undo()/redo() never append an audit record in any
branch. -/
theorem audit_only_confirmed (cfg : Cfg) (attm : List Bool)
    (attr : Nat → FPath → List Bool) (op_id name : String)
    (outdir : Option (List String)) (e : Engine) :
    ((confirm_and_move cfg attm attr op_id name outdir e).2 = .ok →
      (confirm_and_move cfg attm attr op_id name outdir e).1.audit.countP
          (fun a => a.op == "move")
        = e.audit.countP (fun a => a.op == "move") + 1 ∧
      (confirm_and_move cfg attm attr op_id name outdir e).1.audit.length
        = e.audit.length + 1) ∧
    ((confirm_and_move cfg attm attr op_id name outdir e).2 ≠ .ok →
      (confirm_and_move cfg attm attr op_id name outdir e).1.audit = e.audit) ∧
    ((exclude_current cfg attm attr op_id e).2 = .ok →
      (exclude_current cfg attm attr op_id e).1.audit.countP
          (fun a => a.op == "exclude")
        = e.audit.countP (fun a => a.op == "exclude") + 1 ∧
      (exclude_current cfg attm attr op_id e).1.audit.length = e.audit.length + 1) ∧
    ((exclude_current cfg attm attr op_id e).2 ≠ .ok →
      (exclude_current cfg attm attr op_id e).1.audit = e.audit) ∧
    ((defer_current cfg attm attr op_id e).2 = .ok →
      (defer_current cfg attm attr op_id e).1.audit.countP
          (fun a => a.op == "defer")
        = e.audit.countP (fun a => a.op == "defer") + 1 ∧
      (defer_current cfg attm attr op_id e).1.audit.length = e.audit.length + 1) ∧
    ((defer_current cfg attm attr op_id e).2 ≠ .ok →
      (defer_current cfg attm attr op_id e).1.audit = e.audit) ∧
    (undo_last_persistent cfg attm attr e).1.audit = e.audit ∧
    (redo_last_persistent cfg attm attr e).1.audit = e.audit := by
  refine ⟨?_, ?_, ?_, ?_, ?_, ?_, ?_, ?_⟩
  · cases outdir with
    | none =>
      simp only [confirm_and_move]
      by_cases hn : stripStr name = ""
      · rw [if_pos hn]
        intro h0
        simp at h0
      · rw [if_neg hn]
        intro h0
        simp at h0
    | some out =>
      simp only [confirm_and_move]
      by_cases hn : stripStr name = ""
      · rw [if_pos hn]
        intro h0
        simp at h0
      · rw [if_neg hn]
        by_cases hidx : 0 ≤ e.index ∧ e.index < e.files.length
        · rw [dif_pos hidx]
          by_cases hmv : (try_move_with_retry attm
              (mkdirP e.fs (out ++ [safe_key (stripStr name)]))
              (e.files.getD e.index.toNat emptyPath)
              (finalize_dest (mkdirP e.fs (out ++ [safe_key (stripStr name)]))
                ⟨out ++ [safe_key (stripStr name)],
                  (e.files.getD e.index.toNat emptyPath).name⟩)).1 = false
          · rw [if_pos hmv]
            intro h0
            simp at h0
          · rw [if_neg hmv]
            intro _
            constructor
            · simp [confirmTail_audit, List.countP_append, List.countP_cons]
            · simp [confirmTail_audit]
        · rw [dif_neg hidx]
          intro h0
          simp at h0
  · cases outdir with
    | none =>
      simp only [confirm_and_move]
      by_cases hn : stripStr name = ""
      · rw [if_pos hn]
        intro _
        rfl
      · rw [if_neg hn]
        intro _
        rfl
    | some out =>
      simp only [confirm_and_move]
      by_cases hn : stripStr name = ""
      · rw [if_pos hn]
        intro _
        rfl
      · rw [if_neg hn]
        by_cases hidx : 0 ≤ e.index ∧ e.index < e.files.length
        · rw [dif_pos hidx]
          by_cases hmv : (try_move_with_retry attm
              (mkdirP e.fs (out ++ [safe_key (stripStr name)]))
              (e.files.getD e.index.toNat emptyPath)
              (finalize_dest (mkdirP e.fs (out ++ [safe_key (stripStr name)]))
                ⟨out ++ [safe_key (stripStr name)],
                  (e.files.getD e.index.toNat emptyPath).name⟩)).1 = false
          · rw [if_pos hmv]
            intro _
            rfl
          · rw [if_neg hmv]
            intro hne
            exact absurd rfl hne
        · rw [dif_neg hidx]
          intro _
          rfl
  · simp only [exclude_current]
    by_cases hidx : 0 ≤ e.index ∧ e.index < e.files.length
    · rw [dif_pos hidx]
      by_cases hmv : (try_move_with_retry attm
          (mkdirOne e.fs ((e.files.getD e.index.toNat emptyPath).dir ++ [EXCLUDE_DIR_NAME]))
          (e.files.getD e.index.toNat emptyPath)
          (finalize_dest
            (mkdirOne e.fs ((e.files.getD e.index.toNat emptyPath).dir ++ [EXCLUDE_DIR_NAME]))
            ⟨(e.files.getD e.index.toNat emptyPath).dir ++ [EXCLUDE_DIR_NAME],
              (e.files.getD e.index.toNat emptyPath).name⟩)).1 = false
      · rw [if_pos hmv]
        intro h0
        simp at h0
      · rw [if_neg hmv]
        intro _
        constructor
        · simp [confirmTail_audit, List.countP_append, List.countP_cons]
        · simp [confirmTail_audit]
    · rw [dif_neg hidx]
      intro h0
      simp at h0
  · simp only [exclude_current]
    by_cases hidx : 0 ≤ e.index ∧ e.index < e.files.length
    · rw [dif_pos hidx]
      by_cases hmv : (try_move_with_retry attm
          (mkdirOne e.fs ((e.files.getD e.index.toNat emptyPath).dir ++ [EXCLUDE_DIR_NAME]))
          (e.files.getD e.index.toNat emptyPath)
          (finalize_dest
            (mkdirOne e.fs ((e.files.getD e.index.toNat emptyPath).dir ++ [EXCLUDE_DIR_NAME]))
            ⟨(e.files.getD e.index.toNat emptyPath).dir ++ [EXCLUDE_DIR_NAME],
              (e.files.getD e.index.toNat emptyPath).name⟩)).1 = false
      · rw [if_pos hmv]
        intro _
        rfl
      · rw [if_neg hmv]
        intro hne
        exact absurd rfl hne
    · rw [dif_neg hidx]
      intro _
      rfl
  · simp only [defer_current]
    by_cases hidx : 0 ≤ e.index ∧ e.index < e.files.length
    · rw [dif_pos hidx]
      by_cases hmv : (try_move_with_retry attm
          (mkdirOne e.fs ((e.files.getD e.index.toNat emptyPath).dir ++ [DEFER_DIR_NAME]))
          (e.files.getD e.index.toNat emptyPath)
          (finalize_dest
            (mkdirOne e.fs ((e.files.getD e.index.toNat emptyPath).dir ++ [DEFER_DIR_NAME]))
            ⟨(e.files.getD e.index.toNat emptyPath).dir ++ [DEFER_DIR_NAME],
              (e.files.getD e.index.toNat emptyPath).name⟩)).1 = false
      · rw [if_pos hmv]
        intro h0
        simp at h0
      · rw [if_neg hmv]
        intro _
        constructor
        · simp [confirmTail_audit, List.countP_append, List.countP_cons]
        · simp [confirmTail_audit]
    · rw [dif_neg hidx]
      intro h0
      simp at h0
  · simp only [defer_current]
    by_cases hidx : 0 ≤ e.index ∧ e.index < e.files.length
    · rw [dif_pos hidx]
      by_cases hmv : (try_move_with_retry attm
          (mkdirOne e.fs ((e.files.getD e.index.toNat emptyPath).dir ++ [DEFER_DIR_NAME]))
          (e.files.getD e.index.toNat emptyPath)
          (finalize_dest
            (mkdirOne e.fs ((e.files.getD e.index.toNat emptyPath).dir ++ [DEFER_DIR_NAME]))
            ⟨(e.files.getD e.index.toNat emptyPath).dir ++ [DEFER_DIR_NAME],
              (e.files.getD e.index.toNat emptyPath).name⟩)).1 = false
      · rw [if_pos hmv]
        intro _
        rfl
      · rw [if_neg hmv]
        intro hne
        exact absurd rfl hne
    · rw [dif_neg hidx]
      intro _
      rfl
  · cases hc : undoCand (build_op_state e.hist) with
    | none => simp [undo_last_persistent, hc]
    | some cand =>
      simp only [undo_last_persistent, hc]
      by_cases hex : entryExists e.fs cand.2.current_path = false
      · rw [if_pos hex]
      · rw [if_neg hex]
        by_cases hmv : (try_move_with_retry attm e.fs cand.2.current_path
            (finalize_dest e.fs cand.2.origin_src)).1 = false
        · rw [if_pos hmv]
        · rw [if_neg hmv]
          rw [goto_file_audit, applyLoad_audit]
  · cases hc : redoCand (build_op_state e.hist) with
    | none => simp [redo_last_persistent, hc]
    | some cand =>
      simp only [redo_last_persistent, hc]
      by_cases hex : entryExists e.fs cand.2.current_path = false
      · rw [if_pos hex]
      · rw [if_neg hex]
        by_cases hmv : (try_move_with_retry attm e.fs cand.2.current_path
            (finalize_dest e.fs cand.2.origin_dst)).1 = false
        · rw [if_pos hmv]
        · rw [if_neg hmv]
          rw [goto_file_audit, applyLoad_audit]

theorem audit_only_confirmed_witness :
    (confirm_and_move ⟨[], true⟩ [true] (fun _ _ => [true]) "A" "n" (some ["out"])
      ⟨[⟨["in"], ⟨"a", ".wav"⟩⟩], 0, ⟨[⟨["in"], ⟨"a", ".wav"⟩⟩], [["in"], ["out"]]⟩,
        [], []⟩).1.audit.countP (fun a => a.op == "move")
      = ([] : List AuditRec).countP (fun a => a.op == "move") + 1 ∧
    (confirm_and_move ⟨[], true⟩ [true] (fun _ _ => [true]) "A" "n" (some ["out"])
      ⟨[⟨["in"], ⟨"a", ".wav"⟩⟩], 0, ⟨[⟨["in"], ⟨"a", ".wav"⟩⟩], [["in"], ["out"]]⟩,
        [], []⟩).1.audit.length = ([] : List AuditRec).length + 1 := by
  exact (audit_only_confirmed ⟨[], true⟩ [true] (fun _ _ => [true]) "A" "n" (some ["out"])
    ⟨[⟨["in"], ⟨"a", ".wav"⟩⟩], 0, ⟨[⟨["in"], ⟨"a", ".wav"⟩⟩], [["in"], ["out"]]⟩,
      [], []⟩).1 rfl

/-- C10 (amended): a history record whose payload carries no usable op_id
(absent or empty, as for restore_deferred_error and player_init_failed
records and for unparseable payloads read back empty), and likewise any
record whose action is none of move, exclude, defer, undo, redo — which
covers the diagnostic undo_error and redo_error records even though those
do carry an op_id — has no effect on reconstruction: appending it to any
history log leaves `build_op_state` unchanged. -/
theorem no_opid_frame (rows : List HRow) (r : HRow)
    (h : r.payload.getOpId = none ∨
      (r.action ≠ "move" ∧ r.action ≠ "exclude" ∧ r.action ≠ "defer" ∧
       r.action ≠ "undo" ∧ r.action ≠ "redo")) :
    build_op_state (rows ++ [r]) = build_op_state rows :=
  build_op_state_append_irrelevant rows r h

/-- Counterexample to C10 as stated: the diagnostic undo_error record the
code writes on a failed undo move does carry the candidate's op_id in its
payload, so it is not a record "whose payload carries no op_id". -/
theorem no_opid_frame_counterexample :
    ((undo_last_persistent ⟨[], true⟩ [] (fun _ _ => [true])
      ⟨[], -1, ⟨[⟨["out"], ⟨"a", ".wav"⟩⟩], [["in"], ["out"]]⟩,
        [⟨1, "move", ⟨some "A", some "move", some ⟨["in"], ⟨"a", ".wav"⟩⟩,
          some ⟨["out"], ⟨"a", ".wav"⟩⟩⟩⟩], []⟩).1.hist.getLast?).map
        (fun r => (r.action, r.payload.op_id))
      = some ("undo_error", some "A") := by
  rfl

theorem no_opid_frame_witness :
    build_op_state
        ([⟨1, "move", ⟨some "A", some "move", some ⟨["in"], ⟨"a", ".wav"⟩⟩,
            some ⟨["out"], ⟨"a", ".wav"⟩⟩⟩⟩] ++
          [⟨2, "restore_deferred_error", ⟨none, none, none, none⟩⟩])
      = build_op_state
          [⟨1, "move", ⟨some "A", some "move", some ⟨["in"], ⟨"a", ".wav"⟩⟩,
            some ⟨["out"], ⟨"a", ".wav"⟩⟩⟩⟩] :=
  no_opid_frame
    [⟨1, "move", ⟨some "A", some "move", some ⟨["in"], ⟨"a", ".wav"⟩⟩,
      some ⟨["out"], ⟨"a", ".wav"⟩⟩⟩⟩]
    ⟨2, "restore_deferred_error", ⟨none, none, none, none⟩⟩
    (Or.inl rfl)
